import Mathlib

/-!
# Verification of mongooat's path-addressed tree-transformation core

Shallow embedding of the repository's core helpers (data-tree field deleter,
schema validator, partial-schema synthesizer, update decomposer, structural
clone) and proofs about them.
-/

namespace Mongooat

/-- A JavaScript runtime value as the repository's helpers see it: the
`undefined` sentinel, `null`, scalar values, the wrapper objects the
structural clone special-cases (`Date`, `RegExp`, BSON `ObjectId` and
`Decimal128`), plain objects (ordered own-key maps) and arrays.

Modelling notes (fixed for the whole development): strings are atoms (their
character-index properties are outside the model), numbers are integers,
property reads consult own keys only (prototype-inherited properties are
outside the model), and JS objects have pairwise-distinct keys — theorems
that need that invariant carry it as a hypothesis. -/
inductive Js where
  | undef
  | null
  | bool (b : Bool)
  | num (n : Int)
  | str (s : String)
  | date (ms : Int)
  | regexp (source flags : String) (lastIndex : Int)
  | objectId (hex : String)
  | decimal128 (v : String)
  | obj (fields : List (String × Js))
  | arr (elems : List Js)
deriving Repr

def Js.indOn {P : Js → Prop}
    (hundef : P .undef) (hnull : P .null)
    (hbool : ∀ b, P (.bool b)) (hnum : ∀ n, P (.num n)) (hstr : ∀ s, P (.str s))
    (hdate : ∀ m, P (.date m)) (hre : ∀ s f l, P (.regexp s f l))
    (hoid : ∀ h, P (.objectId h)) (hdec : ∀ v, P (.decimal128 v))
    (hobj : ∀ fs, (∀ kv ∈ fs, P kv.2) → P (.obj fs))
    (harr : ∀ es, (∀ e ∈ es, P e) → P (.arr es)) :
    ∀ v, P v
  | .undef => hundef
  | .null => hnull
  | .bool b => hbool b
  | .num n => hnum n
  | .str s => hstr s
  | .date m => hdate m
  | .regexp s f l => hre s f l
  | .objectId h => hoid h
  | .decimal128 v => hdec v
  | .obj fs => hobj fs (fun kv hkv =>
      Js.indOn hundef hnull hbool hnum hstr hdate hre hoid hdec hobj harr kv.2)
  | .arr es => harr es (fun e he =>
      Js.indOn hundef hnull hbool hnum hstr hdate hre hoid hdec hobj harr e)
termination_by v => sizeOf v
decreasing_by
  · have h1 : sizeOf kv < sizeOf fs := List.sizeOf_lt_of_mem hkv
    have h2 : sizeOf kv.2 ≤ sizeOf kv := by obtain ⟨a, b⟩ := kv; simp
    simp only [Js.obj.sizeOf_spec]; omega
  · have h1 : sizeOf e < sizeOf es := List.sizeOf_lt_of_mem he
    simp only [Js.arr.sizeOf_spec]; omega

mutual

def jsBeq : Js → Js → Bool
  | .undef, .undef => true
  | .null, .null => true
  | .bool a, .bool b => a == b
  | .num a, .num b => a == b
  | .str a, .str b => a == b
  | .date a, .date b => a == b
  | .regexp s f l, .regexp s' f' l' => s == s' && f == f' && l == l'
  | .objectId a, .objectId b => a == b
  | .decimal128 a, .decimal128 b => a == b
  | .obj fs, .obj gs => jsBeqFields fs gs
  | .arr es, .arr fs => jsBeqList es fs
  | _, _ => false

def jsBeqFields : List (String × Js) → List (String × Js) → Bool
  | [], [] => true
  | (k, v) :: r, (k', v') :: r' => k == k' && jsBeq v v' && jsBeqFields r r'
  | _, _ => false

def jsBeqList : List Js → List Js → Bool
  | [], [] => true
  | e :: r, e' :: r' => jsBeq e e' && jsBeqList r r'
  | _, _ => false

end

theorem jsBeq_refl : ∀ v : Js, jsBeq v v = true := by
  intro v
  induction v using Js.indOn
  case hobj fs ih =>
    show jsBeqFields fs fs = true
    induction fs with
    | nil => rfl
    | cons kv r ihr =>
      obtain ⟨k, v⟩ := kv
      simp only [jsBeqFields, Bool.and_eq_true, beq_self_eq_true, true_and]
      exact ⟨ih (k, v) (by simp), ihr (fun kv h => ih kv (by simp [h]))⟩
  case harr es ih =>
    show jsBeqList es es = true
    induction es with
    | nil => rfl
    | cons e r ihr =>
      simp only [jsBeqList, Bool.and_eq_true]
      exact ⟨ih e (by simp), ihr (fun e h => ih e (by simp [h]))⟩
  all_goals simp [jsBeq]

theorem jsBeq_eq : ∀ a b : Js, jsBeq a b = true → a = b := by
  intro a
  induction a using Js.indOn
  case hobj fs ih =>
    intro b hb
    cases b <;> simp only [jsBeq] at hb
    case obj gs =>
      congr 1
      induction fs generalizing gs with
      | nil =>
        cases gs with
        | nil => rfl
        | cons _ _ => simp [jsBeqFields] at hb
      | cons kv r ihr =>
        cases gs with
        | nil => obtain ⟨k, v⟩ := kv; simp [jsBeqFields] at hb
        | cons kv' r' =>
          obtain ⟨k, v⟩ := kv; obtain ⟨k', v'⟩ := kv'
          simp only [jsBeqFields, Bool.and_eq_true, beq_iff_eq] at hb
          obtain ⟨⟨hk, hv⟩, hr⟩ := hb
          have h1 := ih (k, v) (by simp) v' hv
          have h2 := ihr (fun kv h => ih kv (by simp [h])) r' hr
          simp_all
    all_goals simp at hb
  case harr es ih =>
    intro b hb
    cases b <;> simp only [jsBeq] at hb
    case arr gs =>
      congr 1
      induction es generalizing gs with
      | nil =>
        cases gs with
        | nil => rfl
        | cons _ _ => simp [jsBeqList] at hb
      | cons e r ihr =>
        cases gs with
        | nil => simp [jsBeqList] at hb
        | cons e' r' =>
          simp only [jsBeqList, Bool.and_eq_true] at hb
          obtain ⟨he, hr⟩ := hb
          have h1 := ih e (by simp) e' he
          have h2 := ihr (fun e h => ih e (by simp [h])) r' hr
          simp_all
    all_goals simp at hb
  all_goals
    intro b hb
    cases b <;> simp only [jsBeq] at hb <;> simp_all

instance : DecidableEq Js := fun a b =>
  decidable_of_iff (jsBeq a b = true) ⟨jsBeq_eq a b, fun h => h ▸ jsBeq_refl b⟩

deriving instance DecidableEq for Except

/-- `DEFAULT_ARRAY_PATH_KEY` from `src/constants.ts`: the reserved wildcard
path segment meaning "every element of the array at this position". -/
def DEFAULT_ARRAY_PATH_KEY : String := "<idx>"

/-- Numeric value of a list of decimal digits. -/
def digitsVal (cs : List Char) : Nat :=
  cs.foldl (fun a c => a * 10 + (c.toNat - '0'.toNat)) 0

/-- The canonical array-index property names: `"0"`, or a digit string with no
leading zero. JS array element access `arr[k]` with a string key `k` hits an
element exactly when `k` is such a canonical index (e.g. `arr["01"]` does not). -/
def canonIndex (s : String) : Option Nat :=
  match s.data with
  | [] => none
  | c :: cs =>
    if (c :: cs).all Char.isDigit && (c != '0' || cs.isEmpty) then some (digitsVal (c :: cs))
    else none

/-- `Number(lastKey)` truncated for `splice`, on the fragment of strings that
can occur as path segments (segments of a `"."`-split never contain a dot, so
no fractional forms arise): `""` parses as `0`; an optional single `'+'` sign
then a digit string parses as its value; `"-0"`, `"-00"`, … parse as `0`.
`none` stands for every string whose `Number` value is `NaN` *or* negative or
out of the decimal fragment (hex/exponent/whitespace forms are outside the
model): for all of those the source's splice branch leaves the array
untouched, exactly as the delete fall-through does on an array. -/
def jsNumTrunc (s : String) : Option Nat :=
  match s.data with
  | [] => some 0
  | '+' :: cs => if !cs.isEmpty && cs.all Char.isDigit then some (digitsVal cs) else none
  | '-' :: cs =>
    if !cs.isEmpty && cs.all Char.isDigit && digitsVal cs == 0 then some 0 else none
  | cs => if cs.all Char.isDigit then some (digitsVal cs) else none

/-- Look an own key up in an object's field list (first match, as JS objects
hold each key once). -/
def lookupField : List (String × Js) → String → Option Js
  | [], _ => none
  | (k, v) :: r, key => if k = key then some v else lookupField r key

/-- Replace the value bound to `key` (models the in-place mutation of an
object's field seen through its parent). -/
def setField : List (String × Js) → String → Js → List (String × Js)
  | [], _, _ => []
  | (k, v) :: r, key, v' =>
    if k = key then (k, v') :: setField r key v' else (k, v) :: setField r key v' 

/-- The terminal block of `deleteField` (`src/unnamed/part_015` lines 24–33):
`index = Number(lastKey)`; an in-range index on an array is spliced out; the
wildcard on an array clears it (`splice(0, length)`); otherwise
`delete current[lastKey]`.  `delete` on `null`/`undefined` throws a
`TypeError` (modelled as `Except.error ()`), and in strict mode so does
deleting an array's non-configurable `length` property; deleting an absent
key from an array or a boxed scalar is a no-op. -/
def terminalStep (lastKey : String) (current : Js) : Except Unit Js :=
  match current with
  | .arr es =>
    match jsNumTrunc lastKey with
    | some n => .ok (.arr (if n < es.length then es.eraseIdx n else es))
    | none =>
      if lastKey = DEFAULT_ARRAY_PATH_KEY then .ok (.arr [])
      else if lastKey = "length" then .error ()
      else .ok (.arr es)
  | .obj fs => .ok (.obj (fs.filter fun kv => kv.1 != lastKey))
  | .null => .error ()
  | .undef => .error ()
  | v => .ok v

/-- The terminal block of the older `src/src/helpers/deleteField.ts` (lines
19–26): identical to `terminalStep` except that it has no wildcard branch, so
a terminal `"<idx>"` on an array falls through to `delete current["<idx>"]`,
a no-op. -/
def terminalStepV0 (lastKey : String) (current : Js) : Except Unit Js :=
  match current with
  | .arr es =>
    match jsNumTrunc lastKey with
    | some n => .ok (.arr (if n < es.length then es.eraseIdx n else es))
    | none => if lastKey = "length" then .error () else .ok (.arr es)
  | .obj fs => .ok (.obj (fs.filter fun kv => kv.1 != lastKey))
  | .null => .error ()
  | .undef => .error ()
  | v => .ok v

/-- `forEach`-style effectful map: apply `f` to every element, propagating a
thrown exception (used for the wildcard fan-out). -/
def mapME (f : Js → Except Unit Js) : List Js → Except Unit (List Js)
  | [] => .ok []
  | e :: r =>
    match f e with
    | .error err => .error err
    | .ok e' =>
      match mapME f r with
      | .error err => .error err
      | .ok r' => .ok (e' :: r')

/-- `deleteField(obj, path)` from `src/unnamed/part_015` lines 14–34, on the
segment list `path.split(".")` (the source's `keys.slice(i+1).join(".")`
before the recursive fan-out re-splits to exactly `keys.slice(i+1)`, since
split segments contain no dot).  The walk: a wildcard segment over an array
fans out the remaining path into every element; `current[keys[i]] ===
undefined` (absent key, out-of-range or `undefined`-valued element, any read
on a boxed scalar) returns silently; reading a property of `null` or
`undefined` throws.  A read of `length` on an array detaches the walk onto a
number, after which it can neither throw nor change the tree, so it is
modelled as the silent no-op it observably is.  In-place mutation is modelled
by returning the post-state. -/
def deleteField (t : Js) : List String → Except Unit Js
  | [] => .ok t
  | [lastKey] => terminalStep lastKey t
  | key :: rest =>
    match t with
    | .arr es =>
      if key = DEFAULT_ARRAY_PATH_KEY then
        (mapME (fun e => deleteField e rest) es).map Js.arr
      else
        match canonIndex key with
        | some n =>
          match es[n]? with
          | some e =>
            if e = .undef then .ok (.arr es)
            else (deleteField e rest).map (fun e' => .arr (es.set n e'))
          | none => .ok (.arr es)
        | none => .ok (.arr es)
    | .obj fs =>
      match lookupField fs key with
      | some v =>
        if v = .undef then .ok (.obj fs)
        else (deleteField v rest).map (fun v' => .obj (setField fs key v'))
      | none => .ok (.obj fs)
    | .null => .error ()
    | .undef => .error ()
    | v => .ok v

/-- `deleteField` from the older `src/src/helpers/deleteField.ts` lines 8–27:
the same walk as `deleteField`, with `terminalStepV0` at the end. -/
def deleteFieldV0 (t : Js) : List String → Except Unit Js
  | [] => .ok t
  | [lastKey] => terminalStepV0 lastKey t
  | key :: rest =>
    match t with
    | .arr es =>
      if key = DEFAULT_ARRAY_PATH_KEY then
        (mapME (fun e => deleteFieldV0 e rest) es).map Js.arr
      else
        match canonIndex key with
        | some n =>
          match es[n]? with
          | some e =>
            if e = .undef then .ok (.arr es)
            else (deleteFieldV0 e rest).map (fun e' => .arr (es.set n e'))
          | none => .ok (.arr es)
        | none => .ok (.arr es)
    | .obj fs =>
      match lookupField fs key with
      | some v =>
        if v = .undef then .ok (.obj fs)
        else (deleteFieldV0 v rest).map (fun v' => .obj (setField fs key v'))
      | none => .ok (.obj fs)
    | .null => .error ()
    | .undef => .error ()
    | v => .ok v

/-! ## C1: the two concrete deletions from the spec's testable properties -/

/-- The document `{a:{b:1,c:2}}`. -/
def docAB : Js := .obj [("a", .obj [("b", .num 1), ("c", .num 2)])]

/-- The document `{a:[{x:1},{x:2}]}`. -/
def docAX : Js := .obj [("a", .arr [.obj [("x", .num 1)], .obj [("x", .num 2)]])]

/-- C1, counterexample: deleting `"a.<idx>"` from `{a:[{x:1},{x:2}]}` does
*not* yield `{a:[{},{}]}` under either variant of the data-tree field
deleter.  The terminal wildcard is never fanned out into the elements: the
part_015 variant clears the whole array, and the older variant's
`delete current["<idx>"]` is a no-op. -/
theorem c1_terminal_wildcard_counterexample :
    deleteField docAX ["a", DEFAULT_ARRAY_PATH_KEY]
        ≠ .ok (.obj [("a", .arr [.obj [], .obj []])]) ∧
    deleteFieldV0 docAX ["a", DEFAULT_ARRAY_PATH_KEY]
        ≠ .ok (.obj [("a", .arr [.obj [], .obj []])]) := by
  exact ⟨by decide, by decide⟩

/-- C1, amended: deleting `"a.b"` from `{a:{b:1,c:2}}` yields `{a:{c:2}}`
under both variants; deleting the terminal-wildcard path `"a.<idx>"` from
`{a:[{x:1},{x:2}]}` yields `{a:[]}` under the part_015 variant (the terminal
wildcard clears the array) and leaves the document unchanged under the older
`src/helpers/deleteField.ts` variant (which has no terminal-wildcard
branch). -/
theorem c1_deleteField_examples :
    deleteField docAB ["a", "b"] = .ok (.obj [("a", .obj [("c", .num 2)])]) ∧
    deleteFieldV0 docAB ["a", "b"] = .ok (.obj [("a", .obj [("c", .num 2)])]) ∧
    deleteField docAX ["a", DEFAULT_ARRAY_PATH_KEY] = .ok (.obj [("a", .arr [])]) ∧
    deleteFieldV0 docAX ["a", DEFAULT_ARRAY_PATH_KEY] = .ok docAX := by
  exact ⟨rfl, rfl, rfl, rfl⟩

/-! ## C2: failure semantics of the data-tree field deleter -/

mutual

/-- No `null` occurs anywhere in the tree. -/
def nullFree : Js → Bool
  | .null => false
  | .obj fs => nullFreeFields fs
  | .arr es => nullFreeElems es
  | _ => true

/-- `nullFree` over an object's fields. -/
def nullFreeFields : List (String × Js) → Bool
  | [] => true
  | (_, v) :: r => nullFree v && nullFreeFields r

/-- `nullFree` over an array's elements. -/
def nullFreeElems : List Js → Bool
  | [] => true
  | e :: r => nullFree e && nullFreeElems r

end

mutual

/-- No array element anywhere in the tree is the `undefined` sentinel
(`undefined`-valued object fields are allowed; only array elements matter,
because the wildcard fan-out recurses into elements unchecked). -/
def elemsDefined : Js → Bool
  | .obj fs => elemsDefinedFields fs
  | .arr es => elemsDefinedElems es
  | _ => true

/-- `elemsDefined` over an object's fields. -/
def elemsDefinedFields : List (String × Js) → Bool
  | [] => true
  | (_, v) :: r => elemsDefined v && elemsDefinedFields r

/-- `elemsDefined` over an array's elements, also requiring the elements
themselves to be defined. -/
def elemsDefinedElems : List Js → Bool
  | [] => true
  | e :: r => !jsBeq e .undef && elemsDefined e && elemsDefinedElems r

end

theorem nullFreeFields_mem {fs : List (String × Js)} (h : nullFreeFields fs = true)
    {kv : String × Js} (hm : kv ∈ fs) : nullFree kv.2 = true := by
  induction fs with
  | nil => cases hm
  | cons p r ih =>
    obtain ⟨k, v⟩ := p
    simp only [nullFreeFields, Bool.and_eq_true] at h
    rcases List.mem_cons.mp hm with hm | hm
    · subst hm; exact h.1
    · exact ih h.2 hm

theorem nullFreeElems_mem {es : List Js} (h : nullFreeElems es = true)
    {e : Js} (hm : e ∈ es) : nullFree e = true := by
  induction es with
  | nil => cases hm
  | cons x r ih =>
    simp only [nullFreeElems, Bool.and_eq_true] at h
    rcases List.mem_cons.mp hm with hm | hm
    · subst hm; exact h.1
    · exact ih h.2 hm

theorem elemsDefinedFields_mem {fs : List (String × Js)} (h : elemsDefinedFields fs = true)
    {kv : String × Js} (hm : kv ∈ fs) : elemsDefined kv.2 = true := by
  induction fs with
  | nil => cases hm
  | cons p r ih =>
    obtain ⟨k, v⟩ := p
    simp only [elemsDefinedFields, Bool.and_eq_true] at h
    rcases List.mem_cons.mp hm with hm | hm
    · subst hm; exact h.1
    · exact ih h.2 hm

theorem elemsDefinedElems_mem {es : List Js} (h : elemsDefinedElems es = true)
    {e : Js} (hm : e ∈ es) : e ≠ .undef ∧ elemsDefined e = true := by
  induction es with
  | nil => cases hm
  | cons x r ih =>
    simp only [elemsDefinedElems, Bool.and_eq_true, Bool.not_eq_true'] at h
    rcases List.mem_cons.mp hm with hm | hm
    · subst hm
      refine ⟨fun hx => ?_, h.1.2⟩
      rw [hx] at h
      exact absurd (jsBeq_refl .undef) (by simp [h.1.1])
    · exact ih h.2 hm

theorem lookupField_mem {fs : List (String × Js)} {key : String} {v : Js}
    (h : lookupField fs key = some v) : (key, v) ∈ fs := by
  induction fs with
  | nil => simp [lookupField] at h
  | cons p r ih =>
    obtain ⟨k, w⟩ := p
    by_cases hk : k = key
    · subst hk
      have hw : lookupField ((k, w) :: r) k = some w := by simp [lookupField]
      rw [hw] at h
      cases h
      exact List.mem_cons_self _ _
    · have hw : lookupField ((k, w) :: r) key = lookupField r key := by
        simp [lookupField, hk]
      rw [hw] at h
      exact List.mem_cons_of_mem _ (ih h)

theorem mapME_ok_of_forall {f : Js → Except Unit Js} {es : List Js}
    (h : ∀ e ∈ es, ∃ r, f e = .ok r) : ∃ rs, mapME f es = .ok rs := by
  induction es with
  | nil => exact ⟨[], rfl⟩
  | cons e r ih =>
    obtain ⟨e', he⟩ := h e (List.mem_cons_self _ _)
    obtain ⟨rs, hrs⟩ := ih (fun x hx => h x (List.mem_cons_of_mem _ hx))
    exact ⟨e' :: rs, by simp [mapME, he, hrs]⟩

/-- C2, counterexample: `deleteField` *can* throw.  On the document
`{a:null}` and the path `"a.b"`, the walk steps into `null` (which is not
`=== undefined`) and the terminal `delete null["b"]` throws a `TypeError`,
contradicting the claim's "never throws … including trees containing null
values at intermediate positions of the path". -/
theorem c2_null_throws :
    deleteField (.obj [("a", .null)]) ["a", "b"] = .error () := rfl

/-- C2, amended: `deleteField(tree, path)` terminates normally for every tree
that contains no `null` values and no `undefined` array elements and every
path that never deletes an array's `length` property; in particular an
absent intermediate segment is a silent no-op rather than an error.  (The
excluded inputs genuinely throw: a `null` stepped into or deleted from
throws a TypeError, a fanned-out `undefined` array element makes the
recursive call delete from `undefined`, and strict mode forbids deleting an
array's non-configurable `length`.) -/
theorem c2_deleteField_total (t : Js) (keys : List String)
    (hnull : nullFree t = true) (hdef : elemsDefined t = true)
    (ht : t ≠ .undef) (hlen : "length" ∉ keys) :
    ∃ r, deleteField t keys = .ok r := by
  induction keys generalizing t with
  | nil => exact ⟨t, rfl⟩
  | cons key rest ih =>
    have hkey : key ≠ "length" := fun hx => hlen (by simp [hx])
    cases rest with
    | nil =>
      cases t with
      | null => simp [nullFree] at hnull
      | undef => exact absurd rfl ht
      | obj fs => exact ⟨_, rfl⟩
      | arr es =>
        show ∃ r, terminalStep key (Js.arr es) = Except.ok r
        unfold terminalStep
        cases h : jsNumTrunc key with
        | some n => exact ⟨_, rfl⟩
        | none =>
          by_cases hw : key = DEFAULT_ARRAY_PATH_KEY
          · exact ⟨Js.arr [], by simp [hw]⟩
          · exact ⟨Js.arr es, by simp [hw, hkey]⟩
      | bool b => exact ⟨_, rfl⟩
      | num n => exact ⟨_, rfl⟩
      | str a => exact ⟨_, rfl⟩
      | date m => exact ⟨_, rfl⟩
      | regexp a b c => exact ⟨_, rfl⟩
      | objectId a => exact ⟨_, rfl⟩
      | decimal128 a => exact ⟨_, rfl⟩
    | cons y ys =>
      have hlen' : "length" ∉ y :: ys := fun hm => hlen (List.mem_cons_of_mem _ hm)
      cases t with
      | null => simp [nullFree] at hnull
      | undef => exact absurd rfl ht
      | obj fs =>
        simp only [deleteField]
        cases hl : lookupField fs key with
        | some v =>
          by_cases hv : v = Js.undef
          · exact ⟨Js.obj fs, by simp [hv]⟩
          · have hmem := lookupField_mem hl
            have h1 := nullFreeFields_mem hnull hmem
            have h2 := elemsDefinedFields_mem hdef hmem
            obtain ⟨r, hr⟩ := ih v h1 h2 hv hlen'
            exact ⟨Js.obj (setField fs key r), by simp [hv, hr, Except.map]⟩
        | none => exact ⟨_, rfl⟩
      | arr es =>
        simp only [deleteField]
        by_cases hw : key = DEFAULT_ARRAY_PATH_KEY
        · obtain ⟨rs, hrs⟩ := @mapME_ok_of_forall (fun e => deleteField e (y :: ys))
            es (fun e he => by
              have h1 := nullFreeElems_mem hnull he
              have h2 := elemsDefinedElems_mem hdef he
              exact ih e h1 h2.2 h2.1 hlen')
          exact ⟨Js.arr rs, by simp [hw, hrs, Except.map]⟩
        · cases hc : canonIndex key with
          | some n =>
            cases hg : es[n]? with
            | some e =>
              by_cases he : e = Js.undef
              · exact ⟨Js.arr es, by simp [hw, hc, hg, he]⟩
              · have hmem : e ∈ es := List.getElem?_mem hg
                have h1 := nullFreeElems_mem hnull hmem
                have h2 := elemsDefinedElems_mem hdef hmem
                obtain ⟨r, hr⟩ := ih e h1 h2.2 he hlen'
                exact ⟨Js.arr (es.set n r), by simp [hw, hc, hg, he, hr, Except.map]⟩
            | none => exact ⟨Js.arr es, by simp [hw, hc, hg]⟩
          | none => exact ⟨Js.arr es, by simp [hw, hc]⟩
      | bool b => exact ⟨_, rfl⟩
      | num n => exact ⟨_, rfl⟩
      | str a => exact ⟨_, rfl⟩
      | date m => exact ⟨_, rfl⟩
      | regexp a b c => exact ⟨_, rfl⟩
      | objectId a => exact ⟨_, rfl⟩
      | decimal128 a => exact ⟨_, rfl⟩

/-- Witness for `c2_deleteField_total` at a concrete input. -/
theorem c2_deleteField_total_witness :
    ∃ r, deleteField docAB ["a", "b"] = .ok r :=
  c2_deleteField_total docAB ["a", "b"] (by decide) (by decide) (by decide) (by decide)

/-! ## C4: terminal-segment semantics of the data-tree field deleter -/

/-- Spec-side observer: the nodes reached from `t` by walking the non-terminal
segments `pre` exactly as `deleteField`'s loop does — fanning the rest of the
path out at a wildcard over an array, stopping at an absent / `undefined` /
scalar-detached step (where the deleter can no longer change the tree), and
reaching nothing through `null` (where the deleter throws instead). -/
def reach (t : Js) : List String → List Js
  | [] => [t]
  | key :: rest =>
    match t with
    | .arr es =>
      if key = DEFAULT_ARRAY_PATH_KEY then es.flatMap (fun e => reach e rest)
      else
        match canonIndex key with
        | some n =>
          match es[n]? with
          | some e => if e = .undef then [] else reach e rest
          | none => []
        | none => []
    | .obj fs =>
      match lookupField fs key with
      | some v => if v = .undef then [] else reach v rest
      | none => []
    | _ => []

theorem terminalStep_ok_ne_undef {k : String} {t r : Js} (ht : t ≠ Js.undef)
    (h : terminalStep k t = .ok r) : r ≠ .undef := by
  cases t with
  | null => simp [terminalStep] at h
  | undef => exact absurd rfl ht
  | obj fs =>
    simp only [terminalStep, Except.ok.injEq] at h
    subst h; simp
  | arr es =>
    cases hn : jsNumTrunc k with
    | some n =>
      simp only [terminalStep, hn, Except.ok.injEq] at h
      subst h; simp
    | none =>
      simp only [terminalStep, hn] at h
      split_ifs at h with h1 h2
      all_goals
        first
          | (simp only [Except.ok.injEq] at h; subst h; simp)
          | simp at h
  | bool b => simp only [terminalStep, Except.ok.injEq] at h; subst h; simp
  | num n => simp only [terminalStep, Except.ok.injEq] at h; subst h; simp
  | str s => simp only [terminalStep, Except.ok.injEq] at h; subst h; simp
  | date m => simp only [terminalStep, Except.ok.injEq] at h; subst h; simp
  | regexp a b c => simp only [terminalStep, Except.ok.injEq] at h; subst h; simp
  | objectId a => simp only [terminalStep, Except.ok.injEq] at h; subst h; simp
  | decimal128 a => simp only [terminalStep, Except.ok.injEq] at h; subst h; simp

theorem deleteField_ok_ne_undef : ∀ {keys : List String} {t r : Js},
    t ≠ .undef → deleteField t keys = .ok r → r ≠ .undef := by
  intro keys t r ht h
  cases keys with
  | nil =>
    simp only [deleteField, Except.ok.injEq] at h
    subst h; exact ht
  | cons key rest =>
    cases rest with
    | nil => exact terminalStep_ok_ne_undef ht h
    | cons y ys =>
      cases t with
      | null => simp [deleteField] at h
      | undef => exact absurd rfl ht
      | obj fs =>
        cases hl : lookupField fs key with
        | none =>
          simp only [deleteField, hl, Except.ok.injEq] at h
          subst h; simp
        | some v =>
          by_cases hv : v = Js.undef
          · simp only [deleteField, hl, if_pos hv, Except.ok.injEq] at h
            subst h; simp
          · cases hd : deleteField v (y :: ys) with
            | error e =>
              (simp only [deleteField, hl, if_neg hv, hd, Except.map] at h) <;>
                exact Except.noConfusion h
            | ok v' =>
              simp only [deleteField, hl, if_neg hv, hd, Except.map, Except.ok.injEq] at h
              subst h; simp
      | arr es =>
        by_cases hw : key = DEFAULT_ARRAY_PATH_KEY
        · cases hm : mapME (fun e => deleteField e (y :: ys)) es with
          | error e =>
            (simp only [deleteField, if_pos hw, hm, Except.map] at h) <;>
              exact Except.noConfusion h
          | ok rs =>
            simp only [deleteField, if_pos hw, hm, Except.map, Except.ok.injEq] at h
            subst h; simp
        · cases hc : canonIndex key with
          | none =>
            simp only [deleteField, if_neg hw, hc, Except.ok.injEq] at h
            subst h; simp
          | some n =>
            cases hg : es[n]? with
            | none =>
              simp only [deleteField, if_neg hw, hc, hg, Except.ok.injEq] at h
              subst h; simp
            | some e =>
              by_cases he : e = Js.undef
              · simp only [deleteField, if_neg hw, hc, hg, if_pos he,
                  Except.ok.injEq] at h
                subst h; simp
              · cases hd : deleteField e (y :: ys) with
                | error _ =>
                  (simp only [deleteField, if_neg hw, hc, hg, if_neg he, hd,
                    Except.map] at h) <;>
                    exact Except.noConfusion h
                | ok e' =>
                  simp only [deleteField, if_neg hw, hc, hg, if_neg he, hd,
                    Except.map, Except.ok.injEq] at h
                  subst h; simp
      | bool b => simp only [deleteField, Except.ok.injEq] at h; subst h; simp
      | num n => simp only [deleteField, Except.ok.injEq] at h; subst h; simp
      | str s => simp only [deleteField, Except.ok.injEq] at h; subst h; simp
      | date m => simp only [deleteField, Except.ok.injEq] at h; subst h; simp
      | regexp a b c => simp only [deleteField, Except.ok.injEq] at h; subst h; simp
      | objectId a => simp only [deleteField, Except.ok.injEq] at h; subst h; simp
      | decimal128 a => simp only [deleteField, Except.ok.injEq] at h; subst h; simp

theorem lookupField_set_self {fs : List (String × Js)} {key : String} {v v' : Js}
    (h : lookupField fs key = some v) :
    lookupField (setField fs key v') key = some v' := by
  induction fs with
  | nil => simp [lookupField] at h
  | cons p r ih =>
    obtain ⟨k, w⟩ := p
    by_cases hk : k = key
    · subst hk
      simp [lookupField, setField]
    · have h' : lookupField ((k, w) :: r) key = lookupField r key := by
        simp [lookupField, hk]
      rw [h'] at h
      have hgoal : lookupField (setField ((k, w) :: r) key v') key
          = lookupField (setField r key v') key := by
        simp [setField, hk, lookupField]
      rw [hgoal]
      exact ih h

theorem mapME_ok_iff {f : Js → Except Unit Js} : ∀ {es es' : List Js},
    mapME f es = .ok es' ↔ List.Forall₂ (fun e e' => f e = .ok e') es es' := by
  intro es
  induction es with
  | nil =>
    intro es'
    constructor
    · intro h
      simp only [mapME, Except.ok.injEq] at h
      subst h; exact List.Forall₂.nil
    · intro h; cases h; rfl
  | cons e r ih =>
    intro es'
    constructor
    · intro h
      cases he : f e with
      | error _ =>
        simp only [mapME, he] at h
        exact Except.noConfusion h
      | ok e' =>
        cases hr : mapME f r with
        | error _ =>
          simp only [mapME, he, hr] at h
          exact Except.noConfusion h
        | ok rs =>
          simp only [mapME, he, hr, Except.ok.injEq] at h
          subst h
          exact List.Forall₂.cons he (ih.mp hr)
    · intro h
      cases h with
      | cons he hr =>
        simp [mapME, he, ih.mpr hr]

/-- `deleteField` on `null` or `undefined` with a non-empty path always
throws (a property read or a `delete` on a nullish base). -/
theorem deleteField_nullish_err (y : String) (ys : List String) :
    deleteField Js.null (y :: ys) = .error () ∧
    deleteField Js.undef (y :: ys) = .error () := by
  cases ys <;> exact ⟨rfl, rfl⟩

/-- C4: the terminal-segment semantics of the part_015 `deleteField`.  When
`deleteField t (pre ++ [last])` returns normally, the nodes reached by the
non-terminal walk in the input and in the result correspond pointwise through
the terminal block, and the terminal block behaves as the claim states: the
wildcard on an array empties it, a named segment on an object removes exactly
that key, and a segment parsing as an in-range index on an array splices that
single index out (later elements shifting down via `eraseIdx`). -/
theorem c4_terminal_semantics :
    (∀ (pre : List String) (last : String) (t r : Js),
        deleteField t (pre ++ [last]) = .ok r →
        List.Forall₂ (fun a b => terminalStep last a = .ok b) (reach t pre) (reach r pre)) ∧
    (∀ es, terminalStep DEFAULT_ARRAY_PATH_KEY (.arr es) = .ok (.arr [])) ∧
    (∀ fs lastKey, terminalStep lastKey (.obj fs) =
        .ok (.obj (fs.filter fun kv => kv.1 != lastKey))) ∧
    (∀ es lastKey n, jsNumTrunc lastKey = some n → n < es.length →
        terminalStep lastKey (.arr es) = .ok (.arr (es.eraseIdx n))) := by
  refine ⟨?_, ?_, ?_, ?_⟩
  · intro pre
    induction pre with
    | nil =>
      intro last t r h
      exact List.Forall₂.cons h List.Forall₂.nil
    | cons key pre' ih =>
      intro last t r h
      obtain ⟨y, ys, hys⟩ : ∃ y ys, pre' ++ [last] = y :: ys := by
        cases pre' <;> exact ⟨_, _, rfl⟩
      rw [List.cons_append, hys] at h
      cases t with
      | null =>
        simp only [deleteField] at h
        exact Except.noConfusion h
      | undef =>
        simp only [deleteField] at h
        exact Except.noConfusion h
      | obj fs =>
        cases hl : lookupField fs key with
        | none =>
          simp only [deleteField, hl, Except.ok.injEq] at h
          subst h
          simp only [reach, hl]
          exact List.Forall₂.nil
        | some v =>
          by_cases hv : v = Js.undef
          · simp only [deleteField, hl, if_pos hv, Except.ok.injEq] at h
            subst h
            simp only [reach, hl, if_pos hv]
            exact List.Forall₂.nil
          · cases hd : deleteField v (y :: ys) with
            | error _ =>
              (simp only [deleteField, hl, if_neg hv, hd, Except.map] at h) <;>
                exact Except.noConfusion h
            | ok v' =>
              simp only [deleteField, hl, if_neg hv, hd, Except.map,
                Except.ok.injEq] at h
              subst h
              have hv' : v' ≠ .undef := deleteField_ok_ne_undef hv (hys ▸ hd)
              simp only [reach, hl, lookupField_set_self hl, if_neg hv, if_neg hv']
              exact ih last v v' (hys ▸ hd)
      | arr es =>
        by_cases hw : key = DEFAULT_ARRAY_PATH_KEY
        · cases hm : mapME (fun e => deleteField e (y :: ys)) es with
          | error _ =>
            (simp only [deleteField, if_pos hw, hm, Except.map] at h) <;>
              exact Except.noConfusion h
          | ok rs =>
            simp only [deleteField, if_pos hw, hm, Except.map, Except.ok.injEq] at h
            subst h
            have h2 := mapME_ok_iff.mp hm
            simp only [reach, if_pos hw]
            clear hm
            induction h2 with
            | nil => simp only [List.flatMap_nil]; exact List.Forall₂.nil
            | cons hee htail iht =>
              simp only [List.flatMap_cons]
              exact List.rel_append (ih last _ _ (hys ▸ hee)) iht
        · cases hc : canonIndex key with
          | none =>
            simp only [deleteField, if_neg hw, hc, Except.ok.injEq] at h
            subst h
            simp only [reach, if_neg hw, hc]
            exact List.Forall₂.nil
          | some n =>
            cases hg : es[n]? with
            | none =>
              simp only [deleteField, if_neg hw, hc, hg, Except.ok.injEq] at h
              subst h
              simp only [reach, if_neg hw, hc, hg]
              exact List.Forall₂.nil
            | some e =>
              by_cases he : e = Js.undef
              · simp only [deleteField, if_neg hw, hc, hg, if_pos he,
                  Except.ok.injEq] at h
                subst h
                simp only [reach, if_neg hw, hc, hg, if_pos he]
                exact List.Forall₂.nil
              · cases hd : deleteField e (y :: ys) with
                | error _ =>
                  simp only [deleteField, if_neg hw, hc, hg, if_neg he, hd,
                    Except.map] at h
                  exact Except.noConfusion h
                | ok e' =>
                  simp only [deleteField, if_neg hw, hc, hg, if_neg he, hd,
                    Except.map, Except.ok.injEq] at h
                  subst h
                  have hlt : n < es.length := (List.getElem?_eq_some.mp hg).1
                  have he' : e' ≠ .undef := deleteField_ok_ne_undef he (hys ▸ hd)
                  simp only [reach, if_neg hw, hc, hg, if_neg he,
                    List.getElem?_set_self hlt, if_neg he']
                  exact ih last e e' (hys ▸ hd)
      | bool b =>
        simp only [deleteField, Except.ok.injEq] at h
        subst h; simp only [reach]; exact List.Forall₂.nil
      | num n =>
        simp only [deleteField, Except.ok.injEq] at h
        subst h; simp only [reach]; exact List.Forall₂.nil
      | str s =>
        simp only [deleteField, Except.ok.injEq] at h
        subst h; simp only [reach]; exact List.Forall₂.nil
      | date m =>
        simp only [deleteField, Except.ok.injEq] at h
        subst h; simp only [reach]; exact List.Forall₂.nil
      | regexp a b c =>
        simp only [deleteField, Except.ok.injEq] at h
        subst h; simp only [reach]; exact List.Forall₂.nil
      | objectId a =>
        simp only [deleteField, Except.ok.injEq] at h
        subst h; simp only [reach]; exact List.Forall₂.nil
      | decimal128 a =>
        simp only [deleteField, Except.ok.injEq] at h
        subst h; simp only [reach]; exact List.Forall₂.nil
  · intro es
    show terminalStep _ _ = _
    unfold terminalStep
    rw [show jsNumTrunc DEFAULT_ARRAY_PATH_KEY = none from rfl]
    simp [DEFAULT_ARRAY_PATH_KEY]
  · intro fs lastKey; rfl
  · intro es lastKey n hn hlt
    unfold terminalStep
    rw [hn]
    simp [hlt]

/-- Witness for `c4_terminal_semantics` at a concrete input: deleting
`"a.<idx>"` from `{a:[{x:1},{x:2}]}` relates the reached array to the cleared
one through the terminal block. -/
theorem c4_terminal_semantics_witness :
    List.Forall₂
      (fun a b => terminalStep DEFAULT_ARRAY_PATH_KEY a = .ok b)
      (reach docAX ["a"]) (reach (.obj [("a", .arr [])]) ["a"]) :=
  c4_terminal_semantics.1 ["a"] DEFAULT_ARRAY_PATH_KEY docAX (.obj [("a", .arr [])]) rfl

/-! ## Update decomposer (`src/src/helpers/processUndefinedFields.ts`) -/

/-- Decimal rendering of a natural number, as a JS template string renders an
array index (fuelled so that it is structural and kernel-evaluable; the fuel
`n + 1` always suffices). -/
def natStrAux : Nat → Nat → List Char
  | 0, _ => []
  | fuel + 1, n =>
    if n < 10 then [Char.ofNat (48 + n)]
    else natStrAux fuel (n / 10) ++ [Char.ofNat (48 + n % 10)]

/-- Decimal string of an array index. -/
def natStr (n : Nat) : String := ⟨natStrAux (n + 1) n⟩

/-- Is the value the `undefined` sentinel? -/
def isUndef : Js → Bool
  | .undef => true
  | _ => false

/-- Is the value a plain object (`isPlainObject`: `Object.prototype.toString`
is `"[object Object]"`)? -/
def isObj : Js → Bool
  | .obj _ => true
  | _ => false

/-- `typeof v === "object" && v !== null`. -/
def isObjectType : Js → Bool
  | .obj _ => true
  | .arr _ => true
  | .date _ => true
  | .regexp _ _ _ => true
  | .objectId _ => true
  | .decimal128 _ => true
  | _ => false

mutual

/-- `buildUnsetMap(obj, parentKey)` from `processUndefinedFields.ts` lines
17–29, returning the list of dot-notation keys inserted into `unset` (each
with payload `""`), in insertion order.  `for key in obj` enumerates an
object's own keys, an array's indices, and nothing on any other value
(wrapper objects have no own enumerable keys in the model). -/
def buildUnset : Js → String → List String
  | .obj fs, parent => buildUnsetFields fs parent
  | .arr es, parent => buildUnsetIdx es 0 parent
  | _, _ => []

/-- One `for key in obj` pass over an object's fields. -/
def buildUnsetFields : List (String × Js) → String → List String
  | [], _ => []
  | (key, v) :: r, parent =>
    buildUnsetEntry (if parent = "" then key else parent ++ "." ++ key) v
      ++ buildUnsetFields r parent

/-- One `for key in obj` pass over an array's index keys (`i` is the index of
the first element). -/
def buildUnsetIdx : List Js → Nat → String → List String
  | [], _, _ => []
  | e :: r, i, parent =>
    buildUnsetEntry (if parent = "" then natStr i else parent ++ "." ++ natStr i) e
      ++ buildUnsetIdx r (i + 1) parent

/-- The body of one loop iteration, given the accumulated `fullKey`: an
`undefined` value records `fullKey`; an array value runs the `forEach`
fan-out; another object value recurses; anything else is skipped. -/
def buildUnsetEntry : String → Js → List String
  | fullKey, .undef => [fullKey]
  | fullKey, .obj fs => buildUnsetFields fs fullKey
  | fullKey, .arr es => buildUnsetElems es 0 fullKey
  | _, _ => []

/-- `obj[key].forEach((item, index) => buildUnsetMap(item, fullKey.index))`. -/
def buildUnsetElems : List Js → Nat → String → List String
  | [], _, _ => []
  | e :: r, i, fullKey =>
    buildUnset e (fullKey ++ "." ++ natStr i) ++ buildUnsetElems r (i + 1) fullKey

end

mutual

/-- `cleanObject` from `removeUndefinedFields` (`processUndefinedFields.ts`
lines 47–64): arrays are filtered of `undefined` elements and their remaining
object-typed elements cleaned; objects drop `undefined`-valued keys and clean
their object-typed values; everything else is returned as-is. -/
def cleanObject : Js → Js
  | .arr es => .arr (cleanElems es)
  | .obj fs => .obj (cleanFields fs)
  | v => v

/-- The array branch: `filter(item => item !== undefined)` fused with the
following `map` (the fusion is sound because the map leaves non-`undefined`
elements non-`undefined`). -/
def cleanElems : List Js → List Js
  | [] => []
  | e :: r =>
    if isUndef e then cleanElems r
    else (if isObjectType e then cleanObject e else e) :: cleanElems r

/-- The object branch: delete `undefined`-valued keys, clean object-typed
values. -/
def cleanFields : List (String × Js) → List (String × Js)
  | [] => []
  | (k, v) :: r =>
    if isUndef v then cleanFields r
    else if isObjectType v then (k, cleanObject v) :: cleanFields r
    else (k, v) :: cleanFields r

end

/-- `removeUndefinedFields` (`processUndefinedFields.ts` line 46): runs
`cleanObject` on the document. -/
def removeUndefinedFields (data : Js) : Js := cleanObject data

mutual

/-- `removeEmptyObjects` (`processUndefinedFields.ts` lines 74–84): prunes
plain-object-valued keys that become empty after recursive pruning; it does
not descend into arrays (`isPlainObject` rejects them). -/
def removeEmptyObjects : Js → Js
  | .obj fs => .obj (removeEmptyFields fs)
  | v => v

/-- The `for key in obj` loop of `removeEmptyObjects`.  A plain-object value
is pruned through `removeEmptyObjects` and dropped if its pruned field list is
empty (the non-`obj` arm of the inner match is unreachable, since
`removeEmptyObjects` maps objects to objects). -/
def removeEmptyFields : List (String × Js) → List (String × Js)
  | [] => []
  | (k, v) :: r =>
    if isObj v then
      match removeEmptyObjects v with
      | .obj gs' =>
        if gs'.isEmpty then removeEmptyFields r else (k, .obj gs') :: removeEmptyFields r
      | w => (k, w) :: removeEmptyFields r
    else (k, v) :: removeEmptyFields r

end

/-- `processUndefinedFieldsForUpdate` (`processUndefinedFields.ts` lines
14–35): `unset` is built by `buildUnsetMap(data)`, `set` is
`removeEmptyObjects(removeUndefinedFields(structuredClone(data)))`.
`structuredClone` is a deep copy, the identity on these pure trees. -/
def processUndefinedFieldsForUpdate (data : Js) : Js × List String :=
  (removeEmptyObjects (removeUndefinedFields data), buildUnset data "")

/-! ## C7: the concrete decomposition from the spec's testable properties -/

/-- The document `{items:[{v:MISSING},{v:1}]}` where `MISSING` is the
`undefined` sentinel. -/
def docItems : Js := .obj [("items", .arr [.obj [("v", .undef)], .obj [("v", .num 1)]])]

/-- C7: `decompose({items:[{v:MISSING},{v:1}]})` returns
`set = {items:[{},{v:1}]}` (the sentinel-valued field stripped, the emptied
array element retained) and `unset = {"items.0.v": ""}` (the concrete array
index, never the wildcard token). -/
theorem c7_decompose_items :
    processUndefinedFieldsForUpdate docItems
      = (.obj [("items", .arr [.obj [], .obj [("v", .num 1)]])], ["items.0.v"]) := by
  decide

/-! ## C9: idempotence of the decomposer with respect to sentinel removal -/

mutual

/-- No `undefined` occurs anywhere in the tree. -/
def undefFree : Js → Bool
  | .undef => false
  | .obj fs => undefFreeFields fs
  | .arr es => undefFreeElems es
  | _ => true

/-- `undefFree` over an object's fields. -/
def undefFreeFields : List (String × Js) → Bool
  | [] => true
  | (_, v) :: r => undefFree v && undefFreeFields r

/-- `undefFree` over an array's elements. -/
def undefFreeElems : List Js → Bool
  | [] => true
  | e :: r => undefFree e && undefFreeElems r

end

theorem undefFreeFields_mem {fs : List (String × Js)} (h : undefFreeFields fs = true)
    {kv : String × Js} (hm : kv ∈ fs) : undefFree kv.2 = true := by
  induction fs with
  | nil => cases hm
  | cons p r ih =>
    obtain ⟨k, v⟩ := p
    simp only [undefFreeFields, Bool.and_eq_true] at h
    rcases List.mem_cons.mp hm with hm | hm
    · subst hm; exact h.1
    · exact ih h.2 hm

theorem undefFreeElems_mem {es : List Js} (h : undefFreeElems es = true)
    {e : Js} (hm : e ∈ es) : undefFree e = true := by
  induction es with
  | nil => cases hm
  | cons x r ih =>
    simp only [undefFreeElems, Bool.and_eq_true] at h
    rcases List.mem_cons.mp hm with hm | hm
    · subst hm; exact h.1
    · exact ih h.2 hm

theorem isUndef_iff {v : Js} : isUndef v = true ↔ v = .undef := by
  cases v <;> simp [isUndef]

theorem scalar_undefFree {v : Js} (h1 : isObjectType v = false) (h2 : v ≠ .undef) :
    undefFree v = true := by
  cases v <;> simp_all [isObjectType, undefFree]

theorem undefFree_cleanObject : ∀ v : Js, v ≠ .undef → undefFree (cleanObject v) = true := by
  intro v
  induction v using Js.indOn
  case hobj fs ih =>
    intro hne
    clear hne
    show undefFreeFields (cleanFields fs) = true
    induction fs with
    | nil => rfl
    | cons kv r ihr =>
      obtain ⟨k, v⟩ := kv
      have ihr' := ihr (fun kv h => ih kv (List.mem_cons_of_mem _ h))
      by_cases hv : isUndef v = true
      · simpa [cleanFields, hv] using ihr'
      · have hvb : isUndef v = false := by revert hv; cases isUndef v <;> simp
        have hvne : v ≠ .undef := fun he => hv (isUndef_iff.mpr he)
        by_cases ho : isObjectType v = true
        · simpa [cleanFields, hvb, ho, undefFreeFields] using
            ⟨ih (k, v) (List.mem_cons_self _ _) hvne, ihr'⟩
        · have hob : isObjectType v = false := by revert ho; cases isObjectType v <;> simp
          have hsc : undefFree v = true := scalar_undefFree hob hvne
          simpa [cleanFields, hvb, hob, undefFreeFields] using ⟨hsc, ihr'⟩
  case harr es ih =>
    intro hne
    clear hne
    show undefFreeElems (cleanElems es) = true
    induction es with
    | nil => rfl
    | cons e r ihr =>
      have ihr' := ihr (fun e h => ih e (List.mem_cons_of_mem _ h))
      by_cases he : isUndef e = true
      · simpa [cleanElems, he] using ihr'
      · have heb : isUndef e = false := by revert he; cases isUndef e <;> simp
        have hene : e ≠ .undef := fun hx => he (isUndef_iff.mpr hx)
        by_cases ho : isObjectType e = true
        · simpa [cleanElems, heb, ho, undefFreeElems] using
            ⟨ih e (List.mem_cons_self _ _) hene, ihr'⟩
        · have hob : isObjectType e = false := by revert ho; cases isObjectType e <;> simp
          have hsc : undefFree e = true := scalar_undefFree hob hene
          simpa [cleanElems, heb, hob, undefFreeElems] using ⟨hsc, ihr'⟩
  case hundef => intro h; exact absurd rfl h
  all_goals intro _; rfl

theorem undefFree_removeEmpty : ∀ v : Js, undefFree v = true →
    undefFree (removeEmptyObjects v) = true := by
  intro v
  induction v using Js.indOn
  case hobj fs ih =>
    show undefFreeFields fs = true → undefFreeFields (removeEmptyFields fs) = true
    induction fs with
    | nil => exact fun _ => rfl
    | cons kv r ihr =>
      intro h
      obtain ⟨k, v⟩ := kv
      simp only [undefFreeFields, Bool.and_eq_true] at h
      have ihr' := ihr (fun kv hm => ih kv (List.mem_cons_of_mem _ hm)) h.2
      by_cases ho : isObj v = true
      · obtain ⟨gs, rfl⟩ : ∃ gs, v = .obj gs := by
          cases v <;> simp_all [isObj]
        have hv' : undefFreeFields (removeEmptyFields gs) = true :=
          ih (k, .obj gs) (List.mem_cons_self _ _) h.1
        have hred : removeEmptyFields ((k, Js.obj gs) :: r)
            = if (removeEmptyFields gs).isEmpty then removeEmptyFields r
              else (k, .obj (removeEmptyFields gs)) :: removeEmptyFields r := rfl
        rw [hred]
        by_cases hemp : (removeEmptyFields gs).isEmpty
        · simpa [hemp] using ihr'
        · simpa [hemp, undefFreeFields] using ⟨hv', ihr'⟩
      · have hob : isObj v = false := by revert ho; cases isObj v <;> simp
        have hred : removeEmptyFields ((k, v) :: r) = (k, v) :: removeEmptyFields r := by
          simp [removeEmptyFields, hob]
        rw [hred]
        simpa [undefFreeFields] using ⟨h.1, ihr'⟩
  case harr es ih => exact fun h => h
  all_goals exact fun h => h

theorem buildUnsetFields_nil {fs : List (String × Js)}
    (h : ∀ kv ∈ fs, ∀ fk, buildUnsetEntry fk kv.2 = []) :
    ∀ p, buildUnsetFields fs p = [] := by
  induction fs with
  | nil => intro p; rfl
  | cons kv r ih =>
    intro p
    obtain ⟨k, v⟩ := kv
    simp only [buildUnsetFields, h (k, v) (List.mem_cons_self _ _),
      ih (fun kv hm => h kv (List.mem_cons_of_mem _ hm)) p, List.nil_append]

theorem buildUnsetIdx_nil {es : List Js}
    (h : ∀ e ∈ es, ∀ fk, buildUnsetEntry fk e = []) :
    ∀ i p, buildUnsetIdx es i p = [] := by
  induction es with
  | nil => intro i p; rfl
  | cons e r ih =>
    intro i p
    simp only [buildUnsetIdx, h e (List.mem_cons_self _ _),
      ih (fun e hm => h e (List.mem_cons_of_mem _ hm)) (i + 1) p, List.nil_append]

theorem buildUnsetElems_nil {es : List Js}
    (h : ∀ e ∈ es, ∀ p, buildUnset e p = []) :
    ∀ i fk, buildUnsetElems es i fk = [] := by
  induction es with
  | nil => intro i fk; rfl
  | cons e r ih =>
    intro i fk
    simp only [buildUnsetElems, h e (List.mem_cons_self _ _),
      ih (fun e hm => h e (List.mem_cons_of_mem _ hm)) (i + 1) fk, List.nil_append]

theorem buildUnset_of_undefFree : ∀ v : Js, undefFree v = true →
    (∀ p, buildUnset v p = []) ∧ (∀ fk, buildUnsetEntry fk v = []) := by
  intro v
  induction v using Js.indOn
  case hobj fs ih =>
    intro h
    have hfs : ∀ kv ∈ fs, ∀ fk, buildUnsetEntry fk kv.2 = [] := by
      intro kv hm fk
      exact (ih kv hm (undefFreeFields_mem h hm)).2 fk
    exact ⟨buildUnsetFields_nil hfs, fun fk => buildUnsetFields_nil hfs fk⟩
  case harr es ih =>
    intro h
    have hmem : ∀ e ∈ es, undefFree e = true := fun e hm => undefFreeElems_mem h hm
    constructor
    · intro p
      exact buildUnsetIdx_nil (fun e hm fk => (ih e hm (hmem e hm)).2 fk) 0 p
    · intro fk
      exact buildUnsetElems_nil (fun e hm p => (ih e hm (hmem e hm)).1 p) 0 fk
  case hundef => intro h; simp [undefFree] at h
  all_goals exact fun _ => ⟨fun _ => rfl, fun _ => rfl⟩

/-- C9: the update decomposer is idempotent with respect to sentinel removal:
for every document, decomposing the `set` output of a prior decomposition
yields an empty `unset` map — the `set` tree of a prior run contains no
sentinel-valued field at any depth. -/
theorem c9_decompose_idempotent (d : Js) :
    (processUndefinedFieldsForUpdate (processUndefinedFieldsForUpdate d).1).2 = [] := by
  show buildUnset (removeEmptyObjects (cleanObject d)) "" = []
  by_cases hd : d = .undef
  · subst hd; rfl
  · exact (buildUnset_of_undefFree _
      (undefFree_removeEmpty _ (undefFree_cleanObject d hd))).1 ""

/-! ## C10: the structural clone (`processUndefinedFields.ts` lines 89–123) -/

/-- `specialProperties`: the own keys `cloneObject` refuses to copy. -/
def specialProperties : List String := ["__proto__", "constructor", "prototype"]

mutual

/-- `clone` (lines 91–104).  `obj == null` (loosely, so also `undefined`) and
non-`"object"` values are returned as-is; arrays, dates, regexps, `ObjectId`
and `Decimal128` are reproduced as equal-valued fresh instances (value-equal,
hence identical in this pure model); a plain object with no own
`"constructor"` key has `obj.constructor.name === "Object"` (the inherited
constructor), so `cloneObject` runs; an own `"constructor"` key shadows the
inherited one with a data value whose `.name` is not `"Object"` (no function
values exist in the model), so the code falls through to `obj.valueOf()` —
which is the object itself, returned uncopied. -/
def clone : Js → Js
  | .undef => .undef
  | .null => .null
  | .bool b => .bool b
  | .num n => .num n
  | .str s => .str s
  | .date m => .date m
  | .regexp s f l => .regexp s f l
  | .objectId h => .objectId h
  | .decimal128 v => .decimal128 v
  | .arr es => .arr (cloneArray es)
  | .obj fs =>
    if (lookupField fs "constructor").isSome then .obj fs
    else .obj (cloneObject fs)

/-- `cloneObject` (lines 106–113): copy own keys except `specialProperties`,
cloning each value. -/
def cloneObject : List (String × Js) → List (String × Js)
  | [] => []
  | (k, v) :: r =>
    if k ∈ specialProperties then cloneObject r
    else (k, clone v) :: cloneObject r

/-- `cloneArray` (lines 115–117): `arr.map(clone)`. -/
def cloneArray : List Js → List Js
  | [] => []
  | e :: r => clone e :: cloneArray r

end

mutual

/-- Spec-side definition, following the claim's words: at every nesting level
of plain objects the own keys `__proto__`, `constructor` and `prototype` are
dropped and all other own keys deep-copied, wrappers reproduced equal-valued. -/
def specClone : Js → Js
  | .obj fs => .obj (specCloneFields fs)
  | .arr es => .arr (specCloneElems es)
  | v => v

/-- `specClone` over an object's fields. -/
def specCloneFields : List (String × Js) → List (String × Js)
  | [] => []
  | (k, v) :: r =>
    if k ∈ specialProperties then specCloneFields r
    else (k, specClone v) :: specCloneFields r

/-- `specClone` over an array's elements. -/
def specCloneElems : List Js → List Js
  | [] => []
  | e :: r => specClone e :: specCloneElems r

end

mutual

/-- No plain object anywhere in the tree carries an own `"constructor"` key
(the condition under which `clone`'s constructor-name dispatch reaches
`cloneObject`). -/
def noCtorKey : Js → Bool
  | .obj fs => !(lookupField fs "constructor").isSome && noCtorKeyFields fs
  | .arr es => noCtorKeyElems es
  | _ => true

/-- `noCtorKey` over an object's fields. -/
def noCtorKeyFields : List (String × Js) → Bool
  | [] => true
  | (_, v) :: r => noCtorKey v && noCtorKeyFields r

/-- `noCtorKey` over an array's elements. -/
def noCtorKeyElems : List Js → Bool
  | [] => true
  | e :: r => noCtorKey e && noCtorKeyElems r

end

/-- The document `{constructor: 5, __proto__: 7}` (own data keys, as e.g.
`JSON.parse` produces them). -/
def ctorDoc : Js := .obj [("constructor", .num 5), ("__proto__", .num 7)]

/-- C10, counterexample: `clone` does *not* always drop the special own keys.
An own `"constructor"` key makes the constructor-name check fail, so the
code returns `obj.valueOf()` — the input object itself, with both its
`"constructor"` and its `"__proto__"` keys intact. -/
theorem c10_clone_counterexample :
    clone ctorDoc = .obj [("constructor", .num 5), ("__proto__", .num 7)] := by
  decide

/-- C10, amended: on every tree in which no plain object carries an own
`"constructor"` key, `clone` drops the own keys `__proto__`, `constructor`
and `prototype` at every nesting level and deep-copies all other own keys,
reproducing wrapper values (dates, regexps, `ObjectId`, `Decimal128`)
equal-valued — i.e. it agrees with the claim's ideal clone `specClone`.  An
object with an own `"constructor"` key is instead returned as-is (uncopied,
special keys retained), per `c10_clone_counterexample`. -/
theorem c10_clone_strips_special : ∀ v : Js, noCtorKey v = true → clone v = specClone v := by
  intro v
  induction v using Js.indOn
  case hobj fs ih =>
    intro h
    simp only [noCtorKey, Bool.and_eq_true] at h
    have hl : (lookupField fs "constructor").isSome = false := by
      simpa using h.1
    show (if (lookupField fs "constructor").isSome then Js.obj fs
      else Js.obj (cloneObject fs)) = Js.obj (specCloneFields fs)
    rw [hl]
    simp only [Bool.false_eq_true, if_false, Js.obj.injEq]
    have h2 := h.2
    clear h hl
    induction fs with
    | nil => rfl
    | cons kv r ihr =>
      obtain ⟨k, v⟩ := kv
      simp only [noCtorKeyFields, Bool.and_eq_true] at h2
      by_cases hk : k ∈ specialProperties
      · simp only [cloneObject, specCloneFields, if_pos hk]
        exact ihr (fun kv hm => ih kv (List.mem_cons_of_mem _ hm)) h2.2
      · simp only [cloneObject, specCloneFields, if_neg hk,
          ih (k, v) (List.mem_cons_self _ _) h2.1,
          ihr (fun kv hm => ih kv (List.mem_cons_of_mem _ hm)) h2.2]
  case harr es ih =>
    intro h
    have h' : noCtorKeyElems es = true := h
    clear h
    show Js.arr (cloneArray es) = Js.arr (specCloneElems es)
    refine congrArg Js.arr ?_
    induction es with
    | nil => rfl
    | cons e r ihr =>
      simp only [noCtorKeyElems, Bool.and_eq_true] at h'
      simp only [cloneArray, specCloneElems,
        ih e (List.mem_cons_self _ _) h'.1,
        ihr (fun e hm => ih e (List.mem_cons_of_mem _ hm)) h'.2]
  all_goals exact fun _ => rfl

/-- Witness for `c10_clone_strips_special` at a concrete input. -/
theorem c10_clone_strips_special_witness :
    noCtorKey docAB = true ∧ clone docAB = specClone docAB :=
  ⟨by decide, c10_clone_strips_special docAB (by decide)⟩

/-! ## Zod schema model (for the schema validator and the partial-schema
synthesizer) -/

/-- A Zod schema node, covering the constructors the repository's helpers
inspect: the scalar kinds accepted for documents, the disallowed kinds
(`ZodVoid`, `ZodPromise`, `ZodFunction` and, for `_id`, also `ZodArray`,
`ZodTuple`, `ZodUndefined`, `ZodUnknown`), objects, arrays, and the
transparent wrappers (`ZodOptional`, `ZodNullable`, `ZodDefault`).  `ZodTuple`
and `ZodPromise` are modelled without children, since the helpers never
inspect theirs. -/
inductive Zod where
  | zstring
  | znumber
  | zboolean
  | zbigint
  | zdate
  | znull
  | zsymbol
  | zvoid
  | zfunction
  | zundefined
  | zunknown
  | zpromise
  | ztuple
  | zarray (elem : Zod)
  | zobject (shape : List (String × Zod))
  | zoptional (inner : Zod)
  | znullable (inner : Zod)
  | zdefault (inner : Zod)
deriving Repr

/-- Structural induction for `Zod` with the inductive hypothesis at every
shape field and at the array element / wrapper inner node. -/
def Zod.indOn {P : Zod → Prop}
    (hstring : P .zstring) (hnumber : P .znumber) (hboolean : P .zboolean)
    (hbigint : P .zbigint) (hdate : P .zdate) (hnull : P .znull)
    (hsymbol : P .zsymbol) (hvoid : P .zvoid) (hfunction : P .zfunction)
    (hundefined : P .zundefined) (hunknown : P .zunknown) (hpromise : P .zpromise)
    (htuple : P .ztuple)
    (harr : ∀ e, P e → P (.zarray e))
    (hobj : ∀ shape, (∀ kv ∈ shape, P kv.2) → P (.zobject shape))
    (hopt : ∀ i, P i → P (.zoptional i))
    (hnullable : ∀ i, P i → P (.znullable i))
    (hdefault : ∀ i, P i → P (.zdefault i)) :
    ∀ s, P s
  | .zstring => hstring
  | .znumber => hnumber
  | .zboolean => hboolean
  | .zbigint => hbigint
  | .zdate => hdate
  | .znull => hnull
  | .zsymbol => hsymbol
  | .zvoid => hvoid
  | .zfunction => hfunction
  | .zundefined => hundefined
  | .zunknown => hunknown
  | .zpromise => hpromise
  | .ztuple => htuple
  | .zarray e => harr e
      (Zod.indOn hstring hnumber hboolean hbigint hdate hnull hsymbol hvoid
        hfunction hundefined hunknown hpromise htuple harr hobj hopt hnullable hdefault e)
  | .zobject shape => hobj shape (fun kv hkv =>
      Zod.indOn hstring hnumber hboolean hbigint hdate hnull hsymbol hvoid
        hfunction hundefined hunknown hpromise htuple harr hobj hopt hnullable hdefault kv.2)
  | .zoptional i => hopt i
      (Zod.indOn hstring hnumber hboolean hbigint hdate hnull hsymbol hvoid
        hfunction hundefined hunknown hpromise htuple harr hobj hopt hnullable hdefault i)
  | .znullable i => hnullable i
      (Zod.indOn hstring hnumber hboolean hbigint hdate hnull hsymbol hvoid
        hfunction hundefined hunknown hpromise htuple harr hobj hopt hnullable hdefault i)
  | .zdefault i => hdefault i
      (Zod.indOn hstring hnumber hboolean hbigint hdate hnull hsymbol hvoid
        hfunction hundefined hunknown hpromise htuple harr hobj hopt hnullable hdefault i)
termination_by s => sizeOf s
decreasing_by
  · simp only [Zod.zarray.sizeOf_spec]; omega
  · have h1 : sizeOf kv < sizeOf shape := List.sizeOf_lt_of_mem hkv
    have h2 : sizeOf kv.2 ≤ sizeOf kv := by obtain ⟨a, b⟩ := kv; simp
    simp only [Zod.zobject.sizeOf_spec]; omega
  · simp only [Zod.zoptional.sizeOf_spec]; omega
  · simp only [Zod.znullable.sizeOf_spec]; omega
  · simp only [Zod.zdefault.sizeOf_spec]; omega

/-- `schema.constructor.name` of a Zod node. -/
def constructorName : Zod → String
  | .zstring => "ZodString"
  | .znumber => "ZodNumber"
  | .zboolean => "ZodBoolean"
  | .zbigint => "ZodBigInt"
  | .zdate => "ZodDate"
  | .znull => "ZodNull"
  | .zsymbol => "ZodSymbol"
  | .zvoid => "ZodVoid"
  | .zfunction => "ZodFunction"
  | .zundefined => "ZodUndefined"
  | .zunknown => "ZodUnknown"
  | .zpromise => "ZodPromise"
  | .ztuple => "ZodTuple"
  | .zarray _ => "ZodArray"
  | .zobject _ => "ZodObject"
  | .zoptional _ => "ZodOptional"
  | .znullable _ => "ZodNullable"
  | .zdefault _ => "ZodDefault"

/-- `getBaseSchema` (`validateSchema.ts` lines 90–93): unwrap `ZodOptional`
and `ZodNullable` layers (not `ZodDefault`). -/
def getBaseSchema : Zod → Zod
  | .zoptional s => getBaseSchema s
  | .znullable s => getBaseSchema s
  | s => s

/-- `isInvalidField`: membership of `INVALID_ZOD_TYPES = [ZodVoid,
ZodPromise, ZodFunction]` by `instanceof`. -/
def isInvalidField : Zod → Bool
  | .zvoid => true
  | .zpromise => true
  | .zfunction => true
  | _ => false

/-- `isInvalidIdField`: membership of `INVALID_ID_ZOD_TYPES = [ZodArray,
ZodTuple, ZodUndefined, ZodUnknown]` by `instanceof`. -/
def isInvalidIdField : Zod → Bool
  | .zarray _ => true
  | .ztuple => true
  | .zundefined => true
  | .zunknown => true
  | _ => false

/-- Is the node directly `ZodOptional`-wrapped? -/
def isOptionalZ : Zod → Bool
  | .zoptional _ => true
  | _ => false

/-- Own-key lookup in a Zod object shape. -/
def lookupZod : List (String × Zod) → String → Option Zod
  | [], _ => none
  | (k, v) :: r, key => if k = key then some v else lookupZod r key

/-- A validation issue: `{path, reason}`. -/
abbrev Issue := String × String

/-- The `_id` error message of `validateSchema`. -/
def idMsg (tn : String) : String := "The '_id' field must not be an '" ++ tn ++ "' type."

/-- The general-field error message of `validateSchema`. -/
def fieldMsg (tn : String) : String := "Schema type '" ++ tn ++ "' is not allowed."

/-- `${path ? path + "." : ""}${key}`. -/
def pathExt (path key : String) : String := if path = "" then key else path ++ "." ++ key

mutual

/-- `processSchema` (`validateSchema.ts` lines 70–83): recursive descent
collecting issues.  Objects recurse per field; arrays recurse into the
element with the wildcard appended; any other node is unwrapped and its base
kind checked against the general-disallowed set.  (The source's
`!(baseSchema instanceof z.ZodType)` disjunct is identically false in the
model, where every shape value is a Zod schema.) -/
def processSchema : Zod → String → List Issue
  | .zobject shape, path => processShape shape path
  | .zarray e, path => processSchema e (pathExt path DEFAULT_ARRAY_PATH_KEY)
  | z, path =>
    if isInvalidField (getBaseSchema z) then
      [(path, fieldMsg (constructorName (getBaseSchema z)))]
    else []

/-- The per-key loop of `processSchema` on an object shape. -/
def processShape : List (String × Zod) → String → List Issue
  | [], _ => []
  | (k, s) :: r, path => processSchema s (pathExt path k) ++ processShape r path

end

/-- `zod.omit({ _id: true })`: drop the top-level `_id` key. -/
def omitId (shape : List (String × Zod)) : List (String × Zod) :=
  shape.filter fun kv => kv.1 != "_id"

/-- `validateSchema(zod, modelName)` (`src/src/helpers/validateSchema.ts`
lines 56–87), returning the accumulated issue list (the source throws an
`InvalidSchemaError` carrying this list when it is non-empty; the model name
only decorates the error).  The `_id` field is checked first: a direct
`ZodOptional` wrapper (`instanceof z.ZodOptional`) is an issue, and so is a
fully-unwrapped kind in either disallowed set; then the remaining fields
(with `_id` omitted when present) are visited by `processSchema`. -/
def validateSchema (shape : List (String × Zod)) : List Issue :=
  let err1 :=
    match lookupZod shape "_id" with
    | some w => if isOptionalZ w then [("_id", idMsg "ZodOptional")] else []
    | none => []
  let err2 :=
    match (lookupZod shape "_id").map getBaseSchema with
    | some b =>
      if isInvalidIdField b || isInvalidField b then [("_id", idMsg (constructorName b))]
      else []
    | none => []
  let err3 :=
    processShape (if (lookupZod shape "_id").isSome then omitId shape else shape) ""
  err1 ++ err2 ++ err3

/-- C5, counterexample: a schema whose `_id` is `z.promise(...)` violates
neither of the claim's two conditions (it is not Optional-wrapped and its
unwrapped kind is not in `{array, tuple, undefined, unknown}`), yet
validation records an `_id` issue — the `_id` check also applies the
*general* disallowed set `{void, promise, function}`. -/
theorem c5_promise_id_counterexample :
    validateSchema [("_id", Zod.zpromise)] = [("_id", idMsg "ZodPromise")] ∧
    isOptionalZ Zod.zpromise = false ∧
    isInvalidIdField (getBaseSchema Zod.zpromise) = false := by
  exact ⟨rfl, rfl, rfl⟩

theorem lookupZod_isSome_of_mem {shape : List (String × Zod)} {k : String} {s : Zod}
    (h : (k, s) ∈ shape) : (lookupZod shape k).isSome = true := by
  induction shape with
  | nil => cases h
  | cons p r ih =>
    obtain ⟨k', v⟩ := p
    by_cases hk : k' = k
    · simp [lookupZod, hk]
    · rcases List.mem_cons.mp h with hm | hm
      · cases hm; simp_all
      · simpa [lookupZod, hk] using ih hm

theorem dot_mem_append (a b : String) : '.' ∈ (a ++ "." ++ b).data := by
  simp [String.data_append]

theorem processSchema_path_dot : ∀ (s : Zod) (p : String), p ≠ "" →
    ∀ q r, (q, r) ∈ processSchema s p → q = p ∨ '.' ∈ q.data := by
  intro s
  induction s using Zod.indOn
  case hobj shape ih =>
    intro p hp q r hm
    simp only [processSchema] at hm
    right
    induction shape with
    | nil => cases hm
    | cons kv rest ihr =>
      obtain ⟨k, z⟩ := kv
      simp only [processShape] at hm
      rcases List.mem_append.mp hm with hm | hm
      · have hpe : pathExt p k ≠ "" := by
          simp only [pathExt, if_neg hp]
          intro hx
          have hdot : '.' ∈ ("" : String).data := by
            rw [← hx]; exact dot_mem_append p k
          simp at hdot
        rcases ih (k, z) (List.mem_cons_self _ _) (pathExt p k) hpe q r hm with hq | hq
        · rw [hq]
          simp only [pathExt, if_neg hp]
          exact dot_mem_append p k
        · exact hq
      · exact ihr (fun kv h => ih kv (List.mem_cons_of_mem _ h)) hm
  case harr e ih =>
    intro p hp q r hm
    simp only [processSchema] at hm
    have hpe : pathExt p DEFAULT_ARRAY_PATH_KEY ≠ "" := by
      simp only [pathExt, if_neg hp]
      intro hx
      have hdot : '.' ∈ ("" : String).data := by
        rw [← hx]; exact dot_mem_append p DEFAULT_ARRAY_PATH_KEY
      simp at hdot
    rcases ih (pathExt p DEFAULT_ARRAY_PATH_KEY) hpe q r hm with hq | hq
    · right
      rw [hq]
      simp only [pathExt, if_neg hp]
      exact dot_mem_append p DEFAULT_ARRAY_PATH_KEY
    · exact Or.inr hq
  all_goals
    intro p hp q r hm
    simp only [processSchema] at hm
    split_ifs at hm <;> simp at hm <;> exact Or.inl hm.1

theorem processShape_mem_extract {shape : List (String × Zod)} {p q r : String}
    (h : (q, r) ∈ processShape shape p) :
    ∃ k s, (k, s) ∈ shape ∧ (q, r) ∈ processSchema s (pathExt p k) := by
  induction shape with
  | nil => cases h
  | cons kv rest ihr =>
    obtain ⟨k, s⟩ := kv
    simp only [processShape] at h
    rcases List.mem_append.mp h with hm | hm
    · exact ⟨k, s, List.mem_cons_self _ _, hm⟩
    · obtain ⟨k', s', hk', hm'⟩ := ihr hm
      exact ⟨k', s', List.mem_cons_of_mem _ hk', hm'⟩

/-- C5, amended: the `_id` check of `validateSchema`.  If `_id` is present
and Optional-wrapped, an issue at path `"_id"` naming `ZodOptional` is
recorded; if its fully-unwrapped kind is in the identifier-disallowed set
`{array, tuple, undefined, unknown}` *or in the general-disallowed set
`{void, promise, function}`*, an issue at path `"_id"` naming that kind is
recorded; and a schema whose `_id` violates none of these (with top-level
field names non-empty) produces no issue at path `"_id"` at all. -/
theorem c5_id_validation :
    (∀ shape w, lookupZod shape "_id" = some w → isOptionalZ w = true →
        ("_id", idMsg "ZodOptional") ∈ validateSchema shape) ∧
    (∀ shape w, lookupZod shape "_id" = some w →
        (isInvalidIdField (getBaseSchema w) || isInvalidField (getBaseSchema w)) = true →
        ("_id", idMsg (constructorName (getBaseSchema w))) ∈ validateSchema shape) ∧
    (∀ shape, (∀ kv ∈ shape, kv.1 ≠ "") →
        (∀ w, lookupZod shape "_id" = some w →
          isOptionalZ w = false ∧ isInvalidIdField (getBaseSchema w) = false ∧
          isInvalidField (getBaseSchema w) = false) →
        ∀ r, ("_id", r) ∉ validateSchema shape) := by
  refine ⟨?_, ?_, ?_⟩
  · intro shape w h hopt
    simp only [validateSchema, h, hopt, if_pos]
    exact List.mem_append.mpr (Or.inl (List.mem_append.mpr (Or.inl (List.mem_cons_self _ _))))
  · intro shape w h hbad
    simp only [validateSchema, h, Option.map_some']
    refine List.mem_append.mpr (Or.inl (List.mem_append.mpr (Or.inr ?_)))
    simp [hbad]
  · intro shape hkeys hgood r hmem
    simp only [validateSchema] at hmem
    rcases List.mem_append.mp hmem with hmem | hmem
    · rcases List.mem_append.mp hmem with hmem | hmem
      · cases hl : lookupZod shape "_id" with
        | none => rw [hl] at hmem; cases hmem
        | some w =>
          rw [hl] at hmem
          simp [(hgood _ hl).1] at hmem
      · cases hl : lookupZod shape "_id" with
        | none => rw [hl] at hmem; cases hmem
        | some w =>
          rw [hl] at hmem
          obtain ⟨h1, h2, h3⟩ := hgood _ hl
          simp [h2, h3] at hmem
    · by_cases hid : (lookupZod shape "_id").isSome
      · rw [if_pos hid] at hmem
        obtain ⟨k, s, hks, hpm⟩ := processShape_mem_extract hmem
        have hkshape : (k, s) ∈ shape := List.mem_of_mem_filter hks
        have hkne : k ≠ "_id" := by
          have hx := List.of_mem_filter hks
          simpa using hx
        have hk0 : k ≠ "" := hkeys (k, s) hkshape
        rw [show pathExt "" k = k from by simp [pathExt]] at hpm
        rcases processSchema_path_dot s k hk0 "_id" r hpm with hq | hq
        · exact hkne hq.symm
        · exact absurd hq (by decide)
      · rw [if_neg hid] at hmem
        obtain ⟨k, s, hks, hpm⟩ := processShape_mem_extract hmem
        have hk0 : k ≠ "" := hkeys (k, s) hks
        rw [show pathExt "" k = k from by simp [pathExt]] at hpm
        rcases processSchema_path_dot s k hk0 "_id" r hpm with hq | hq
        · rw [← hq] at hks
          exact hid (lookupZod_isSome_of_mem hks)
        · exact absurd hq (by decide)

/-- Witness for `c5_id_validation` at concrete schemas: an Optional-wrapped
`_id` and an array `_id` are flagged at path `"_id"`. -/
theorem c5_id_validation_witness :
    ("_id", idMsg "ZodOptional") ∈ validateSchema [("_id", Zod.zoptional Zod.zstring)] ∧
    ("_id", idMsg "ZodArray") ∈ validateSchema [("_id", Zod.zarray Zod.zstring)] ∧
    ∀ r, ("_id", r) ∉ validateSchema [("_id", Zod.zstring), ("name", Zod.znumber)] :=
  ⟨c5_id_validation.1 [("_id", .zoptional .zstring)] (.zoptional .zstring) rfl rfl,
   c5_id_validation.2.1 [("_id", .zarray .zstring)] (.zarray .zstring) rfl rfl,
   c5_id_validation.2.2 [("_id", .zstring), ("name", .znumber)]
     (by intro kv h; rcases List.mem_cons.mp h with h | h
         · subst h; decide
         · rcases List.mem_cons.mp h with h | h
           · subst h; decide
           · cases h)
     (by intro w h
         have hw : w = Zod.zstring := by
           simp [lookupZod] at h
           exact h.symm
         subst hw; exact ⟨rfl, rfl, rfl⟩)⟩

/-- `data.hasOwnProperty(key)`: throws a `TypeError` when `data` is `null`
or `undefined`; on an array, own keys are the canonical in-range indices and
`"length"`; primitive values box to wrappers with no own keys. -/
def hasOwnE : Js → String → Except Unit Bool
  | .undef, _ => .error ()
  | .null, _ => .error ()
  | .obj fs, k => .ok (lookupField fs k).isSome
  | .arr es, k =>
    .ok ((match canonIndex k with
          | some n => decide (n < es.length)
          | none => false) || k == "length")
  | _, _ => .ok false

/-- `data[key]` on a value already known not to be `null`/`undefined`. -/
def jsGet : Js → String → Js
  | .obj fs, k => (lookupField fs k).getD .undef
  | .arr es, k =>
    if k == "length" then .num es.length
    else
      match canonIndex k with
      | some n => (es[n]?).getD .undef
      | none => .undef
  | _, _ => Js.undef

/-- `data[0]` as read by `processArraySchema`. -/
def jsIndex0 : Js → Js
  | .obj fs => (lookupField fs "0").getD .undef
  | .arr es => (es[0]?).getD .undef
  | _ => Js.undef

/-- `schema instanceof z.ZodObject`. -/
def isZodObject : Zod → Bool
  | .zobject _ => true
  | _ => false

mutual

/-- `processSchema(schema, data)` of the `createSchemaFromData` at
`src/unnamed/part_014` lines 191–246: a `ZodObject` rebuilds its shape from
the keys the data owns; any other schema is returned unchanged. -/
def processZSchema : Zod → Js → Except Unit Zod
  | .zobject shape, d => (processZShape shape d).map Zod.zobject
  | s, _ => .ok s

/-- The `for (const key in originalShape)` loop of `processSchema`: each key
owned by the data (a `hasOwnProperty` call that throws on `null`/`undefined`
data) is kept, its field schema rebuilt by `processFieldSchema`. -/
def processZShape : List (String × Zod) → Js → Except Unit (List (String × Zod))
  | [], _ => .ok []
  | (k, fs) :: rest, d =>
    match hasOwnE d k with
    | .error e => .error e
    | .ok false => processZShape rest d
    | .ok true =>
      match processField fs (jsGet d k) with
      | .error e => .error e
      | .ok fs' =>
        match processZShape rest d with
        | .error e => .error e
        | .ok rest' => .ok ((k, fs') :: rest')

/-- `processFieldSchema` with `processComplexSchema` inlined: non-object
data passes the field schema through; object data dispatches on the schema
constructor — objects recurse, arrays rebuild `z.array` from the schema
element processed against `data[0]` (`processArraySchema`), wrappers unwrap,
recurse, and re-wrap; every other schema is returned as is. -/
def processField : Zod → Js → Except Unit Zod
  | s, d =>
    if isObjectType d then
      match s with
      | .zobject shape => (processZShape shape d).map Zod.zobject
      | .zarray e => (processZSchema e (jsIndex0 d)).map Zod.zarray
      | .zoptional i => (processZSchema i d).map Zod.zoptional
      | .znullable i => (processZSchema i d).map Zod.znullable
      | .zdefault i => (processZSchema i d).map Zod.zdefault
      | s' => .ok s'
    else .ok s

end

/-- `createSchemaFromData(schema, data)` (`src/unnamed/part_014` lines
183–246): process the root object schema against the data. -/
def createSchemaFromData (shape : List (String × Zod)) (d : Js) : Except Unit Zod :=
  processZSchema (.zobject shape) d

/-- C6, counterexample: a schema whose array field has an *object* element
schema, applied to data binding that field to an empty array, does not pass
the element schema through — `processArraySchema` recurses into
`data[0] === undefined`, and the object branch then calls
`undefined.hasOwnProperty(key)`, which throws a `TypeError`. -/
theorem c6_empty_array_counterexample :
    createSchemaFromData [("f", .zarray (.zobject [("g", .zstring)]))]
      (.obj [("f", .arr [])]) = .error () := by
  rfl

theorem processZSchema_nonobj {s : Zod} (h : isZodObject s = false) (d : Js) :
    processZSchema s d = .ok s := by
  cases s <;> first | rfl | (simp [isZodObject] at h)

theorem processZShape_empty_array :
    ∀ (shape : List (String × Zod)) (f : String) (elem : Zod)
      (d : List (String × Js)) (shape' : List (String × Zod)),
      lookupZod shape f = some (.zarray elem) → isZodObject elem = false →
      lookupField d f = some (.arr []) →
      processZShape shape (.obj d) = .ok shape' →
      lookupZod shape' f = some (.zarray elem) := by
  intro shape
  induction shape with
  | nil => intro f elem d shape' hlz _ _ _; simp [lookupZod] at hlz
  | cons kv rest ih =>
    intro f elem d shape' hlz helem hld hps
    obtain ⟨k, s⟩ := kv
    by_cases hk : k = f
    · subst hk
      have hlz' : s = Zod.zarray elem := by simpa [lookupZod] using hlz
      subst hlz'

      simp only [processZShape, hasOwnE, hld, Option.isSome_some, jsGet,
        lookupField, Option.getD_some] at hps
      have hpf : processField elem.zarray (Js.arr []) = .ok (Zod.zarray elem) := by
        simp [processField, isObjectType, processZSchema_nonobj helem, Except.map]
      rw [hpf] at hps
      cases hrest : processZShape rest (.obj d) with
      | error e => rw [hrest] at hps; exact Except.noConfusion hps
      | ok rest' =>
        rw [hrest] at hps
        cases hps
        simp [lookupZod]
    · simp only [lookupZod, if_neg hk] at hlz
      simp only [processZShape] at hps
      cases hown : hasOwnE (.obj d) k with
      | error e => rw [hown] at hps; exact Except.noConfusion hps
      | ok b =>
        rw [hown] at hps
        cases b with
        | false =>
          simp only at hps
          exact ih f elem d shape' hlz helem hld hps
        | true =>
          simp only at hps
          cases hpf : processField s (jsGet (.obj d) k) with
          | error e => rw [hpf] at hps; exact Except.noConfusion hps
          | ok s' =>
            rw [hpf] at hps
            cases hrest : processZShape rest (.obj d) with
            | error e => rw [hrest] at hps; exact Except.noConfusion hps
            | ok rest' =>
              rw [hrest] at hps
              cases hps
              simp only [lookupZod, if_neg hk]
              exact ih f elem d rest' hlz helem hld hrest

/-- C6, amended: when the array field's element schema is *not* an object
schema, an empty data array does pass it through unchanged — any normal
(non-throwing) result of `createSchemaFromData` is an object schema in
which the field is still `z.array` of the original element schema.  (When
the element schema is an object schema the call throws instead; see the
counterexample.) -/
theorem c6_empty_array_passthrough
    (shape : List (String × Zod)) (f : String) (elem : Zod)
    (d : List (String × Js)) (r : Zod)
    (hlz : lookupZod shape f = some (.zarray elem))
    (helem : isZodObject elem = false)
    (hld : lookupField d f = some (.arr []))
    (hok : createSchemaFromData shape (.obj d) = .ok r) :
    ∃ shape', r = .zobject shape' ∧ lookupZod shape' f = some (.zarray elem) := by
  simp only [createSchemaFromData, processZSchema, Except.map] at hok
  cases hps : processZShape shape (.obj d) with
  | error e => rw [hps] at hok; exact Except.noConfusion hok
  | ok shape' =>
    rw [hps] at hok
    cases hok
    exact ⟨shape', rfl, processZShape_empty_array shape f elem d shape' hlz helem hld hps⟩

/-- Witness for `c6_empty_array_passthrough`: schema `{f: z.array(z.string())}`
with data `{f: []}` keeps `z.array(z.string())` for `f`. -/
theorem c6_empty_array_passthrough_witness :
    ∃ shape', Zod.zobject [("f", Zod.zarray Zod.zstring)] = .zobject shape' ∧
      lookupZod shape' "f" = some (.zarray .zstring) :=
  c6_empty_array_passthrough [("f", .zarray .zstring)] "f" .zstring
    [("f", .arr [])] (.zobject [("f", .zarray .zstring)]) rfl rfl rfl rfl

/-- `path.split(".")` on the character list: `"".split(".")` is `[""]`, a
leading/trailing/double dot yields empty segments. -/
def splitDot : List Char → List (List Char)
  | [] => [[]]
  | c :: cs =>
    if c = '.' then [] :: splitDot cs
    else
      match splitDot cs with
      | [] => [[c]]
      | seg :: rest => (c :: seg) :: rest

/-- `path.split(".")`. -/
def dotSplit (s : String) : List String := (splitDot s.data).map fun l => ⟨l⟩

/-- A Zod schema node as held on a heap: reference semantics matter for the
narrowing functions, so nodes live in a store and refer to children by
address.  Only the node kinds `deleteZodField` inspects are distinguished;
every other schema is an opaque leaf carrying its constructor name. -/
inductive ZNodeS where
  | zobjS (fields : List (String × Nat))
  | zarrS (elem : Nat)
  | leafS (kind : String)
deriving Repr, DecidableEq

def lookupAddr : List (String × Nat) → String → Option Nat
  | [], _ => none
  | (k, a) :: rest, key => if k = key then some a else lookupAddr rest key

/-- `delete shape[lastKey]` on an object node's field map. -/
def removeKeyS (fields : List (String × Nat)) (k : String) : List (String × Nat) :=
  fields.filter fun kv => kv.1 != k

/-- The terminal block of `deleteZodField` (`src/unnamed/part_015` lines
60–67): on an object node, delete `lastKey` from its (shared, in-place
mutated) shape; on an array node, recurse into the element with the same
single segment; otherwise do nothing.  The array case re-enters the
function, so it is paid for with fuel. -/
def deleteZodTermS : Nat → List ZNodeS → Nat → String → List ZNodeS
  | 0, store, _, _ => store
  | fuel + 1, store, cur, lastKey =>
    match store[cur]? with
    | some (.zobjS fields) => store.set cur (.zobjS (removeKeyS fields lastKey))
    | some (.zarrS e) => deleteZodTermS fuel store e lastKey
    | _ => store

/-- `deleteZodField(schema, path)` (`src/unnamed/part_015` lines 47–67) on
the store, with the path already split into segments.  The loop over the
non-terminal segments: a wildcard on an array node tail-recurses into the
element; an object node either steps into the named field or returns with
the store untouched; any other node leaves `current` where it is and the
loop simply advances to the next segment. -/
def deleteZodFieldS (fuel : Nat) : List ZNodeS → Nat → List String → List ZNodeS
  | store, _, [] => store
  | store, cur, [lastKey] => deleteZodTermS fuel store cur lastKey
  | store, cur, key :: rest =>
    match store[cur]? with
    | some (.zarrS e) =>
      if key = DEFAULT_ARRAY_PATH_KEY then deleteZodFieldS fuel store e rest
      else deleteZodFieldS fuel store cur rest
    | some (.zobjS fields) =>
      match lookupAddr fields key with
      | some nxt => deleteZodFieldS fuel store nxt rest
      | none => store
    | _ => deleteZodFieldS fuel store cur rest

/-- `createSchemaFromPaths(schema, paths)` (`src/unnamed/part_014` lines
111–122): empty path list returns the original schema object itself;
otherwise a *new* root object node is allocated whose field map is a
shallow copy of the original root's — the field values are the same
addresses — and each path is deleted from the new root.  (The
`paths.filter(...)` line in the source discards its result and has no
effect.)  Returns the final store and the address of the returned schema. -/
def createSchemaFromPathsS (store : List ZNodeS) (root : Nat) (paths : List String) :
    List ZNodeS × Nat :=
  if paths.isEmpty then (store, root)
  else
    match store[root]? with
    | some (.zobjS fields) =>
      let newRoot := store.length
      let store1 := store ++ [.zobjS fields]
      (paths.foldl (fun st p => deleteZodFieldS st.length st newRoot (dotSplit p)) store1,
       newRoot)
    | _ => (store, root)

/-- A schema tree as read out of the store, for comparing structures. -/
inductive ZTreeP where
  | leafT (kind : String)
  | arrT (elem : ZTreeP)
  | objT (fields : List (String × ZTreeP))
  | brokenT
deriving Repr

/-- Read the tree rooted at an address out of the store (fuelled; a
dangling address or exhausted fuel reads as `brokenT`). -/
def readTreeS : Nat → List ZNodeS → Nat → ZTreeP
  | 0, _, _ => .brokenT
  | fuel + 1, store, addr =>
    match store[addr]? with
    | some (.leafS k) => .leafT k
    | some (.zarrS e) => .arrT (readTreeS fuel store e)
    | some (.zobjS fields) =>
      .objT (fields.map fun kv => (kv.1, readTreeS fuel store kv.2))
    | none => .brokenT

/-- The schema `z.object({a: z.object({b: z.string(), c: z.string()})})`
laid out on the store, root at address 0. -/
def c3Store : List ZNodeS :=
  [.zobjS [("a", 1)], .zobjS [("b", 2), ("c", 3)],
   .leafS "ZodString", .leafS "ZodString"]

/-- C3: `createSchemaFromPaths` DOES mutate the original schema tree on any
path of depth ≥ 2.  Narrowing `{a: {b: string, c: string}}` by the single
path `"a.b"` copies only the root's field map; the walk steps through the
shared address of the nested object and the terminal `delete shape[lastKey]`
mutates that shared node, so the original root now also reads as
`{a: {c: string}}` — the removal does not appear only in the returned tree. -/
theorem c3_narrow_mutates_original :
    (createSchemaFromPathsS c3Store 0 ["a.b"]).1 =
      [.zobjS [("a", 1)], .zobjS [("c", 3)],
       .leafS "ZodString", .leafS "ZodString", .zobjS [("a", 1)]] ∧
    (createSchemaFromPathsS c3Store 0 ["a.b"]).2 = 4 ∧
    readTreeS c3Store.length c3Store 0 =
      .objT [("a", .objT [("b", .leafT "ZodString"), ("c", .leafT "ZodString")])] ∧
    readTreeS (createSchemaFromPathsS c3Store 0 ["a.b"]).1.length
        (createSchemaFromPathsS c3Store 0 ["a.b"]).1 0 =
      .objT [("a", .objT [("c", .leafT "ZodString")])] ∧
    readTreeS (createSchemaFromPathsS c3Store 0 ["a.b"]).1.length
        (createSchemaFromPathsS c3Store 0 ["a.b"]).1 0 ≠
      readTreeS c3Store.length c3Store 0 := by
  refine ⟨rfl, rfl, rfl, rfl, ?_⟩
  intro h
  have h' : ZTreeP.objT [("a", .objT [("c", .leafT "ZodString")])] =
      .objT [("a", .objT [("b", .leafT "ZodString"), ("c", .leafT "ZodString")])] := h
  simp at h'

/-! ## C8: set/unset partition of the update decomposer -/

/-- Dot-join a segment list, as the decomposer's template strings build keys. -/
def dotJoin : List String → String
  | [] => ""
  | [s] => s
  | s :: rest => s ++ "." ++ dotJoin rest

/-- A dot-notation path resolves to a present position in the tree: object
segments are own keys, array segments are canonical in-range indices. -/
def pathPresent : Js → List String → Bool
  | _, [] => true
  | .obj fs, k :: rest =>
    match lookupField fs k with
    | some v => pathPresent v rest
    | none => false
  | .arr es, k :: rest =>
    match canonIndex k with
    | some n =>
      match es[n]? with
      | some e => pathPresent e rest
      | none => false
    | none => false
  | _, _ :: _ => false

/-- The subtree a non-`undefined` field value contributes to the `set` tree:
object-typed values are cleaned recursively, everything else is kept. -/
def cleanOf (v : Js) : Js := if isObjectType v then cleanObject v else v

mutual

/-- `buildUnsetMap` at the segment level: the same traversal as
`buildUnset`, recording each inserted key as its list of segments instead
of the dot-joined string. -/
def unsetPathsJ : Js → List String → List (List String)
  | .obj fs, pre => unsetPathsFields fs pre
  | .arr es, pre => unsetPathsIdx es 0 pre
  | _, _ => []

/-- Segment-level `buildUnsetFields`. -/
def unsetPathsFields : List (String × Js) → List String → List (List String)
  | [], _ => []
  | (key, v) :: r, pre => unsetPathsEntry (pre ++ [key]) v ++ unsetPathsFields r pre

/-- Segment-level `buildUnsetIdx`. -/
def unsetPathsIdx : List Js → Nat → List String → List (List String)
  | [], _, _ => []
  | e :: r, i, pre => unsetPathsEntry (pre ++ [natStr i]) e ++ unsetPathsIdx r (i + 1) pre

/-- Segment-level `buildUnsetEntry`. -/
def unsetPathsEntry : List String → Js → List (List String)
  | pre, .undef => [pre]
  | pre, .obj fs => unsetPathsFields fs pre
  | pre, .arr es => unsetPathsElems es 0 pre
  | _, _ => []

/-- Segment-level `buildUnsetElems`. -/
def unsetPathsElems : List Js → Nat → List String → List (List String)
  | [], _, _ => []
  | e :: r, i, pre => unsetPathsJ e (pre ++ [natStr i]) ++ unsetPathsElems r (i + 1) pre

end

/-- A well-formed path segment: non-empty and dot-free (so dot-joining is
invertible). -/
def segOk (s : String) : Bool := s != "" && s.data.all fun c => c != '.'

/-- The keys of an object's field list are pairwise distinct (JS objects
hold each key once). -/
def distinctKeys : List (String × Js) → Bool
  | [] => true
  | (k, _) :: r => (r.all fun kv => kv.1 != k) && distinctKeys r

mutual

/-- Every object key anywhere in the tree is a well-formed segment, and each
object's keys are distinct — the well-formedness every tree that came from a
parsed JS object document has. -/
def keysOk : Js → Bool
  | .obj fs => keysOkFields fs && distinctKeys fs
  | .arr es => keysOkElems es
  | _ => true

/-- `keysOk` over an object's fields. -/
def keysOkFields : List (String × Js) → Bool
  | [] => true
  | (k, v) :: r => segOk k && keysOk v && keysOkFields r

/-- `keysOk` over an array's elements. -/
def keysOkElems : List Js → Bool
  | [] => true
  | e :: r => keysOk e && keysOkElems r

end

/-- The document `{items: [undefined, {f: undefined}, {f: 1}]}`. -/
def d8 : Js :=
  .obj [("items", .arr [.undef, .obj [("f", .undef)], .obj [("f", .num 1)]])]

/-- C8, counterexample: on `{items:[undefined,{f:undefined},{f:1}]}` the key
`"items.1.f"` is recorded in `unset` (indices are counted on the *original*
array), while `removeUndefinedFields` filters the `undefined` element out of
the array in `set`, shifting `{f:1}` down to index 1 — so the very same
dot-notation path is also a present leaf position of `set`, holding `1`. -/
theorem c8_partition_counterexample :
    (processUndefinedFieldsForUpdate d8).2 = ["items.1.f"] ∧
    pathPresent (processUndefinedFieldsForUpdate d8).1 (dotSplit "items.1.f") = true ∧
    (processUndefinedFieldsForUpdate d8).1 =
      .obj [("items", .arr [.obj [], .obj [("f", .num 1)]])] := by
  refine ⟨by decide, by decide, by decide⟩

/-- Head of a digit string is not a leading zero (or the string is a single
digit). -/
def leadOk : List Char → Bool
  | [] => false
  | c :: cs => c != '0' || cs.isEmpty

theorem char_digit_facts :
    ∀ m, m < 10 → (Char.ofNat (48 + m)).isDigit = true ∧
      (Char.ofNat (48 + m)).toNat = 48 + m ∧ Char.ofNat (48 + m) ≠ '.' := by
  intro m hm
  interval_cases m <;> exact ⟨by decide, by decide, by decide⟩

theorem digitsVal_append (a : List Char) (c : Char) :
    digitsVal (a ++ [c]) = digitsVal a * 10 + (c.toNat - 48) := by
  simp [digitsVal, List.foldl_append]

theorem natStrAux_spec :
    ∀ fuel n, n < fuel →
      natStrAux fuel n ≠ [] ∧ ((natStrAux fuel n).all Char.isDigit) = true ∧
      leadOk (natStrAux fuel n) = true ∧ digitsVal (natStrAux fuel n) = n := by
  intro fuel
  induction fuel with
  | zero => intro n h; omega
  | succ fuel ih =>
    intro n h
    by_cases hn : n < 10
    · simp only [natStrAux, if_pos hn]
      refine ⟨by simp, ?_, ?_, ?_⟩
      · simp [List.all_cons, (char_digit_facts n hn).1]
      · simp [leadOk]
      · have h48 := (char_digit_facts n hn).2.1
        have h0 : '0'.toNat = 48 := rfl
        simp only [digitsVal, List.foldl_cons, List.foldl_nil, h48, h0]
        omega
    · simp only [natStrAux, if_neg hn]
      obtain ⟨h1, h2, h3, h4⟩ := ih (n / 10) (by omega)
      have hm : n % 10 < 10 := Nat.mod_lt _ (by norm_num)
      refine ⟨by simp, ?_, ?_, ?_⟩
      · simp only [List.all_append, h2, List.all_cons, List.all_nil,
          (char_digit_facts (n % 10) hm).1, Bool.and_self]
      · cases ha : natStrAux fuel (n / 10) with
        | nil => exact absurd ha h1
        | cons c cs =>
          rw [ha] at h3 h4
          show leadOk ((c :: cs) ++ [Char.ofNat (48 + n % 10)]) = true
          by_cases hc0 : c = '0'
          · exfalso
            subst hc0
            have hcs : cs = [] := by
              simp only [leadOk, bne_self_eq_false, Bool.false_or,
                List.isEmpty_eq_true] at h3
              exact h3
            subst hcs
            have hz : digitsVal ['0'] = 0 := by decide
            rw [hz] at h4
            omega
          · have hcb : (c != '0') = true := by simpa using hc0
            simp [List.cons_append, leadOk, hcb]
      · rw [digitsVal_append, h4, (char_digit_facts (n % 10) hm).2.1]
        omega

theorem canonIndex_natStr (n : Nat) : canonIndex (natStr n) = some n := by
  obtain ⟨h1, h2, h3, h4⟩ := natStrAux_spec (n + 1) n (by omega)
  cases ha : natStrAux (n + 1) n with
  | nil => exact absurd ha h1
  | cons c cs =>
    rw [ha] at h2 h3 h4
    have hdata : (natStr n).data = c :: cs := by rw [natStr, ha]
    simp only [canonIndex, hdata, h2, leadOk] at h3 ⊢
    rw [h3]
    simp [h4]

theorem natStr_segOk (n : Nat) : segOk (natStr n) = true := by
  obtain ⟨h1, h2, _, _⟩ := natStrAux_spec (n + 1) n (by omega)
  have hdata : (natStr n).data = natStrAux (n + 1) n := by rw [natStr]
  simp only [segOk, Bool.and_eq_true]
  constructor
  · simp only [bne_iff_ne, ne_eq]
    intro hx
    apply h1
    rw [← hdata, hx]
  · rw [hdata]
    simp only [List.all_eq_true] at h2 ⊢
    intro c hc
    have := h2 c hc
    simp only [bne_iff_ne, ne_eq]
    intro he
    subst he
    simp [Char.isDigit] at this

theorem splitDot_ne_nil : ∀ cs, splitDot cs ≠ [] := by
  intro cs
  cases cs with
  | nil => simp [splitDot]
  | cons c cs' =>
    simp only [splitDot]
    split
    · simp
    · cases h : splitDot cs' <;> simp

theorem splitDot_dotfree : ∀ a, (∀ c ∈ a, c ≠ '.') → splitDot a = [a] := by
  intro a
  induction a with
  | nil => intro _; rfl
  | cons c a' ih =>
    intro h
    have hc : c ≠ '.' := h c (List.mem_cons_self _ _)
    simp only [splitDot, if_neg hc]
    rw [ih fun x hx => h x (List.mem_cons_of_mem _ hx)]

theorem splitDot_append : ∀ a rest, (∀ c ∈ a, c ≠ '.') →
    splitDot (a ++ '.' :: rest) = a :: splitDot rest := by
  intro a
  induction a with
  | nil => intro rest _; simp [splitDot]
  | cons c a' ih =>
    intro rest h
    have hc : c ≠ '.' := h c (List.mem_cons_self _ _)
    have hsplit : splitDot (a'.append ('.' :: rest)) = a' :: splitDot rest :=
      ih rest fun x hx => h x (List.mem_cons_of_mem _ hx)
    simp only [List.cons_append, splitDot, if_neg hc]
    rw [hsplit]

theorem dotSplit_dotJoin : ∀ segs, segs ≠ [] → (∀ s ∈ segs, segOk s = true) →
    dotSplit (dotJoin segs) = segs := by
  intro segs
  induction segs with
  | nil => intro h _; exact absurd rfl h
  | cons s rest ih =>
    intro _ hok
    have hs : ∀ c ∈ s.data, c ≠ '.' := by
      have := hok s (List.mem_cons_self _ _)
      simp only [segOk, Bool.and_eq_true, List.all_eq_true] at this
      intro c hc
      have := this.2 c hc
      simpa using this
    cases rest with
    | nil =>
      show dotSplit s = [s]
      rw [dotSplit, splitDot_dotfree s.data hs]
      rfl
    | cons t rest' =>
      have hjoin : dotJoin (s :: t :: rest') = s ++ "." ++ dotJoin (t :: rest') := rfl
      rw [hjoin, dotSplit]
      have hdata : (s ++ "." ++ dotJoin (t :: rest')).data
          = s.data ++ '.' :: (dotJoin (t :: rest')).data := by
        simp [String.data_append]
      rw [hdata, splitDot_append s.data _ hs]
      have htail := ih (by simp) fun x hx => hok x (List.mem_cons_of_mem _ hx)
      rw [dotSplit] at htail
      simp only [List.map_cons, htail]

theorem dotJoin_ne_empty (x : String) (rest : List String) (hx : x ≠ "") :
    dotJoin (x :: rest) ≠ "" := by
  cases rest with
  | nil => exact hx
  | cons t r =>
    show x ++ "." ++ dotJoin (t :: r) ≠ ""
    intro h
    have hdot : ('.' : Char) ∈ (x ++ "." ++ dotJoin (t :: r)).data :=
      dot_mem_append x (dotJoin (t :: r))
    rw [h] at hdot
    exact absurd hdot (by decide)

theorem dotJoin_append_single : ∀ (pre : List String) (k : String), pre ≠ [] →
    dotJoin (pre ++ [k]) = dotJoin pre ++ "." ++ k := by
  intro pre
  induction pre with
  | nil => intro k h; exact absurd rfl h
  | cons x r ih =>
    intro k _
    cases r with
    | nil => rfl
    | cons y r' =>
      show dotJoin (x :: ((y :: r') ++ [k])) = (x ++ "." ++ dotJoin (y :: r')) ++ "." ++ k
      have h1 : dotJoin (x :: ((y :: r') ++ [k])) = x ++ "." ++ dotJoin ((y :: r') ++ [k]) := rfl
      rw [h1, ih k (by simp)]
      simp [String.append_assoc]

theorem fullKeyEq (pre : List String) (k : String) (h : pre.all segOk = true) :
    (if dotJoin pre = "" then k else dotJoin pre ++ "." ++ k) = dotJoin (pre ++ [k]) := by
  cases pre with
  | nil => simp [dotJoin]
  | cons x r =>
    simp only [List.all_cons, Bool.and_eq_true, segOk] at h
    have hx : x ≠ "" := by simpa using h.1.1
    rw [if_neg (dotJoin_ne_empty x r hx), dotJoin_append_single (x :: r) k (by simp)]

theorem unsetPaths_shift : ∀ v : Js,
    (∀ pre q, unsetPathsJ v (pre ++ q) = (unsetPathsJ v q).map (fun p => pre ++ p)) ∧
    (∀ pre q, unsetPathsEntry (pre ++ q) v = (unsetPathsEntry q v).map (fun p => pre ++ p)) := by
  intro v
  induction v using Js.indOn
  case hobj fs ih =>
    have hfields : ∀ (l : List (String × Js)),
        (∀ kv ∈ l, ∀ pre q, unsetPathsEntry (pre ++ q) kv.2
          = (unsetPathsEntry q kv.2).map (fun p => pre ++ p)) →
        ∀ pre q, unsetPathsFields l (pre ++ q)
          = (unsetPathsFields l q).map (fun p => pre ++ p) := by
      intro l hl
      induction l with
      | nil => intro pre q; rfl
      | cons kv r ihr =>
        intro pre q
        obtain ⟨k, w⟩ := kv
        simp only [unsetPathsFields, List.map_append]
        rw [List.append_assoc, hl (k, w) (List.mem_cons_self _ _) pre (q ++ [k]),
          ihr (fun kv hm => hl kv (List.mem_cons_of_mem _ hm)) pre q]
    exact ⟨fun pre q => hfields fs (fun kv hm => (ih kv hm).2) pre q,
           fun pre q => hfields fs (fun kv hm => (ih kv hm).2) pre q⟩
  case harr es ih =>
    have hidx : ∀ (l : List Js),
        (∀ e ∈ l, ∀ pre q, unsetPathsEntry (pre ++ q) e
          = (unsetPathsEntry q e).map (fun p => pre ++ p)) →
        ∀ i pre q, unsetPathsIdx l i (pre ++ q)
          = (unsetPathsIdx l i q).map (fun p => pre ++ p) := by
      intro l hl
      induction l with
      | nil => intro i pre q; rfl
      | cons e r ihr =>
        intro i pre q
        simp only [unsetPathsIdx, List.map_append]
        rw [List.append_assoc, hl e (List.mem_cons_self _ _) pre (q ++ [natStr i]),
          ihr (fun e hm => hl e (List.mem_cons_of_mem _ hm)) (i + 1) pre q]
    have helems : ∀ (l : List Js),
        (∀ e ∈ l, ∀ pre q, unsetPathsJ e (pre ++ q)
          = (unsetPathsJ e q).map (fun p => pre ++ p)) →
        ∀ i pre q, unsetPathsElems l i (pre ++ q)
          = (unsetPathsElems l i q).map (fun p => pre ++ p) := by
      intro l hl
      induction l with
      | nil => intro i pre q; rfl
      | cons e r ihr =>
        intro i pre q
        simp only [unsetPathsElems, List.map_append]
        rw [List.append_assoc, hl e (List.mem_cons_self _ _) pre (q ++ [natStr i]),
          ihr (fun e hm => hl e (List.mem_cons_of_mem _ hm)) (i + 1) pre q]
    exact ⟨fun pre q => hidx es (fun e hm => (ih e hm).2) 0 pre q,
           fun pre q => helems es (fun e hm => (ih e hm).1) 0 pre q⟩
  all_goals exact ⟨fun _ _ => rfl, fun _ _ => rfl⟩

theorem jsBeq_undef_ne {e : Js} (h : (!jsBeq e Js.undef) = true) : e ≠ .undef := by
  intro he
  subst he
  rw [jsBeq_refl] at h
  cases h

theorem unsetPathsJ_eq_entry : ∀ v : Js, v ≠ .undef → elemsDefined v = true →
    ∀ pre, unsetPathsJ v pre = unsetPathsEntry pre v := by
  intro v
  induction v using Js.indOn
  case hobj fs ih => intro _ _ pre; rfl
  case harr es ih =>
    intro _ hd pre
    have hboth : ∀ (l : List Js),
        (∀ e ∈ l, e ≠ .undef → elemsDefined e = true →
          ∀ p, unsetPathsJ e p = unsetPathsEntry p e) →
        elemsDefinedElems l = true →
        ∀ i p, unsetPathsIdx l i p = unsetPathsElems l i p := by
      intro l hl
      induction l with
      | nil => intro _ i p; rfl
      | cons e r ihr =>
        intro hd' i p
        simp only [elemsDefinedElems, Bool.and_eq_true] at hd'
        obtain ⟨⟨hne, hde⟩, hdr⟩ := hd'
        simp only [unsetPathsIdx, unsetPathsElems]
        rw [hl e (List.mem_cons_self _ _) (jsBeq_undef_ne hne) hde (p ++ [natStr i]),
          ihr (fun e hm => hl e (List.mem_cons_of_mem _ hm)) hdr (i + 1) p]
    simp only [elemsDefined] at hd
    exact hboth es ih hd 0 pre
  all_goals first
    | (intro h _ _; exact absurd rfl h)
    | (intro _ _ _; rfl)

theorem buildUnset_corr : ∀ v : Js, keysOk v = true →
    (∀ pre, pre.all segOk = true →
      buildUnset v (dotJoin pre) = (unsetPathsJ v pre).map dotJoin) ∧
    (∀ pre, pre ≠ [] → pre.all segOk = true →
      buildUnsetEntry (dotJoin pre) v = (unsetPathsEntry pre v).map dotJoin) := by
  intro v
  induction v using Js.indOn
  case hobj fs ih =>
    intro hk
    simp only [keysOk, Bool.and_eq_true] at hk
    have hfb : ∀ (l : List (String × Js)),
        (∀ kv ∈ l, keysOk kv.2 = true → ∀ p, p ≠ [] → p.all segOk = true →
          buildUnsetEntry (dotJoin p) kv.2 = (unsetPathsEntry p kv.2).map dotJoin) →
        keysOkFields l = true → ∀ pre, pre.all segOk = true →
        buildUnsetFields l (dotJoin pre) = (unsetPathsFields l pre).map dotJoin := by
      intro l hl hkf
      induction l with
      | nil => intro pre _; rfl
      | cons kv r ihr =>
        intro pre hpre
        obtain ⟨k, w⟩ := kv
        simp only [keysOkFields, Bool.and_eq_true] at hkf
        obtain ⟨⟨hsk, hkw⟩, hkr⟩ := hkf
        simp only [buildUnsetFields, unsetPathsFields, List.map_append]
        rw [fullKeyEq pre k hpre,
          hl (k, w) (List.mem_cons_self _ _) hkw (pre ++ [k]) (by simp)
            (by simp only [List.all_append, hpre, List.all_cons, List.all_nil, hsk,
                  Bool.and_self]),
          ihr (fun kv hm => hl kv (List.mem_cons_of_mem _ hm)) hkr pre hpre]
    exact ⟨fun pre hpre => hfb fs (fun kv hm h2 => (ih kv hm h2).2) hk.1 pre hpre,
           fun pre _ hpre => hfb fs (fun kv hm h2 => (ih kv hm h2).2) hk.1 pre hpre⟩
  case harr es ih =>
    intro hk
    simp only [keysOk] at hk
    have hib : ∀ (l : List Js),
        (∀ e ∈ l, keysOk e = true → ∀ p, p ≠ [] → p.all segOk = true →
          buildUnsetEntry (dotJoin p) e = (unsetPathsEntry p e).map dotJoin) →
        keysOkElems l = true → ∀ i pre, pre.all segOk = true →
        buildUnsetIdx l i (dotJoin pre) = (unsetPathsIdx l i pre).map dotJoin := by
      intro l hl hke
      induction l with
      | nil => intro i pre _; rfl
      | cons e r ihr =>
        intro i pre hpre
        simp only [keysOkElems, Bool.and_eq_true] at hke
        simp only [buildUnsetIdx, unsetPathsIdx, List.map_append]
        rw [fullKeyEq pre (natStr i) hpre,
          hl e (List.mem_cons_self _ _) hke.1 (pre ++ [natStr i]) (by simp)
            (by simp only [List.all_append, hpre, List.all_cons, List.all_nil,
                  natStr_segOk, Bool.and_self]),
          ihr (fun e hm => hl e (List.mem_cons_of_mem _ hm)) hke.2 (i + 1) pre hpre]
    have heb : ∀ (l : List Js),
        (∀ e ∈ l, keysOk e = true → ∀ p, p.all segOk = true →
          buildUnset e (dotJoin p) = (unsetPathsJ e p).map dotJoin) →
        keysOkElems l = true → ∀ i pre, pre ≠ [] → pre.all segOk = true →
        buildUnsetElems l i (dotJoin pre) = (unsetPathsElems l i pre).map dotJoin := by
      intro l hl hke
      induction l with
      | nil => intro i pre _ _; rfl
      | cons e r ihr =>
        intro i pre hne hpre
        simp only [keysOkElems, Bool.and_eq_true] at hke
        simp only [buildUnsetElems, unsetPathsElems, List.map_append]
        rw [← dotJoin_append_single pre (natStr i) hne,
          hl e (List.mem_cons_self _ _) hke.1 (pre ++ [natStr i])
            (by simp only [List.all_append, hpre, List.all_cons, List.all_nil,
                  natStr_segOk, Bool.and_self]),
          ihr (fun e hm => hl e (List.mem_cons_of_mem _ hm)) hke.2 (i + 1) pre hne hpre]
    exact ⟨fun pre hpre => hib es (fun e hm h2 => (ih e hm h2).2) hk 0 pre hpre,
           fun pre hne hpre => heb es (fun e hm h2 => (ih e hm h2).1) hk 0 pre hne hpre⟩
  all_goals exact fun _ => ⟨fun _ _ => rfl, fun _ _ _ => rfl⟩

theorem isUndef_false {e : Js} (h : e ≠ .undef) : isUndef e = false := by
  cases e <;> simp [isUndef] at h ⊢

theorem cleanElems_map {es : List Js} (h : elemsDefinedElems es = true) :
    cleanElems es = es.map cleanOf := by
  induction es with
  | nil => rfl
  | cons e r ih =>
    simp only [elemsDefinedElems, Bool.and_eq_true] at h
    obtain ⟨⟨hne, _⟩, hr⟩ := h
    have he : isUndef e = false := isUndef_false (jsBeq_undef_ne hne)
    simp only [cleanElems, he, Bool.false_eq_true, if_false, List.map_cons]
    rw [ih hr]
    rfl

theorem lookupField_cleanFields_none {fs : List (String × Js)} {k : String}
    (h : ∀ kv ∈ fs, kv.1 ≠ k) : lookupField (cleanFields fs) k = none := by
  induction fs with
  | nil => rfl
  | cons kv r ih =>
    obtain ⟨k', v⟩ := kv
    have hk' : k' ≠ k := h (k', v) (List.mem_cons_self _ _)
    have hr := ih fun kv hm => h kv (List.mem_cons_of_mem _ hm)
    simp only [cleanFields]
    split
    · exact hr
    · split <;> simp only [lookupField, if_neg hk', hr]

theorem lookupField_cleanFields {fs : List (String × Js)} {k : String} {w : Js}
    (hd : distinctKeys fs = true) (hm : (k, w) ∈ fs) :
    lookupField (cleanFields fs) k = if isUndef w then none else some (cleanOf w) := by
  induction fs with
  | nil => cases hm
  | cons kv r ih =>
    obtain ⟨k', v⟩ := kv
    simp only [distinctKeys, Bool.and_eq_true, List.all_eq_true] at hd
    by_cases hk : k' = k
    · subst hk
      have hvw : v = w := by
        rcases List.mem_cons.mp hm with hx | hx
        · exact (Prod.mk.injEq _ _ _ _ ▸ hx).2.symm
        · exfalso
          have hbad := hd.1 (k', w) hx
          simp at hbad
      subst hvw
      have hnone : lookupField (cleanFields r) k' = none :=
        lookupField_cleanFields_none fun kv hm' => by simpa using hd.1 kv hm'
      cases hiu : isUndef v with
      | true =>
        rw [show cleanFields ((k', v) :: r) = cleanFields r from by
          simp [cleanFields, hiu]]
        rw [hnone]
        simp
      | false =>
        have hcf : cleanFields ((k', v) :: r) = (k', cleanOf v) :: cleanFields r := by
          cases hio : isObjectType v <;> simp [cleanFields, hiu, hio, cleanOf]
        rw [hcf, if_neg (by simp)]
        simp [lookupField]
    · have hm' : (k, w) ∈ r := by
        rcases List.mem_cons.mp hm with hx | hx
        · exact absurd (Prod.mk.injEq _ _ _ _ ▸ hx).1.symm hk
        · exact hx
      have hr := ih hd.2 hm'
      simp only [cleanFields]
      split
      · exact hr
      · split <;> simp only [lookupField, if_neg hk, hr]

theorem unsetPathsFields_mem_extract {fs : List (String × Js)} {pre p : List String}
    (h : p ∈ unsetPathsFields fs pre) :
    ∃ k w, (k, w) ∈ fs ∧ p ∈ unsetPathsEntry (pre ++ [k]) w := by
  induction fs with
  | nil => cases h
  | cons kv r ih =>
    obtain ⟨k, w⟩ := kv
    simp only [unsetPathsFields] at h
    rcases List.mem_append.mp h with h | h
    · exact ⟨k, w, List.mem_cons_self _ _, h⟩
    · obtain ⟨k', w', hm, hp⟩ := ih h
      exact ⟨k', w', List.mem_cons_of_mem _ hm, hp⟩

theorem unsetPathsElems_mem_extract {es : List Js} {pre p : List String} :
    ∀ {i}, p ∈ unsetPathsElems es i pre →
    ∃ n e, es[n]? = some e ∧ p ∈ unsetPathsJ e (pre ++ [natStr (i + n)]) := by
  induction es with
  | nil => intro i h; cases h
  | cons e r ih =>
    intro i h
    simp only [unsetPathsElems] at h
    rcases List.mem_append.mp h with h | h
    · exact ⟨0, e, by simp, by simpa using h⟩
    · obtain ⟨n, e', hn, hp⟩ := ih h
      refine ⟨n + 1, e', by simpa using hn, ?_⟩
      have : i + 1 + n = i + (n + 1) := by omega
      rw [this] at hp
      exact hp

theorem keysOkFields_mem {fs : List (String × Js)} (h : keysOkFields fs = true)
    {k : String} {w : Js} (hm : (k, w) ∈ fs) : segOk k = true ∧ keysOk w = true := by
  induction fs with
  | nil => cases hm
  | cons kv r ih =>
    obtain ⟨k', v⟩ := kv
    simp only [keysOkFields, Bool.and_eq_true] at h
    rcases List.mem_cons.mp hm with hx | hx
    · cases hx; exact h.1
    · exact ih h.2 hx

theorem keysOkElems_mem {es : List Js} (h : keysOkElems es = true)
    {e : Js} (hm : e ∈ es) : keysOk e = true := by
  induction es with
  | nil => cases hm
  | cons x r ih =>
    simp only [keysOkElems, Bool.and_eq_true] at h
    rcases List.mem_cons.mp hm with hx | hx
    · subst hx; exact h.1
    · exact ih h.2 hx

theorem unsetPaths_not_present : ∀ v : Js, v ≠ .undef → keysOk v = true →
    elemsDefined v = true → ∀ p, p ∈ unsetPathsEntry [] v →
    pathPresent (cleanOf v) p = false := by
  intro v
  induction v using Js.indOn
  case hobj fs ih =>
    intro _ hk hd p hp
    simp only [keysOk, Bool.and_eq_true] at hk
    simp only [elemsDefined] at hd
    have hp' : p ∈ unsetPathsFields fs [] := hp
    obtain ⟨k, w, hmem, hpe⟩ := unsetPathsFields_mem_extract hp'
    have hpe1 : p ∈ unsetPathsEntry [k] w := hpe
    have hshift : unsetPathsEntry [k] w
        = (unsetPathsEntry [] w).map (fun q => [k] ++ q) := (unsetPaths_shift w).2 [k] []
    rw [hshift] at hpe1
    obtain ⟨suffix, hsuf, hps⟩ := List.mem_map.mp hpe1
    subst hps
    have hclean : cleanOf (Js.obj fs) = Js.obj (cleanFields fs) := rfl
    rw [hclean]
    obtain ⟨hsk, hkw⟩ := keysOkFields_mem hk.1 hmem
    by_cases hwu : w = .undef
    · subst hwu
      have hsn : suffix = [] := by simpa [unsetPathsEntry] using hsuf
      subst hsn
      have hlk : lookupField (cleanFields fs) k = none := by
        rw [lookupField_cleanFields hk.2 hmem]
        rfl
      simp only [List.singleton_append, List.append_nil, pathPresent, hlk]
    · have hlk : lookupField (cleanFields fs) k = some (cleanOf w) := by
        rw [lookupField_cleanFields hk.2 hmem, isUndef_false hwu]
        rfl
      simp only [List.singleton_append, pathPresent, hlk]
      exact ih (k, w) hmem hwu hkw (elemsDefinedFields_mem hd hmem) suffix hsuf
  case harr es ih =>
    intro _ hk hd p hp
    simp only [keysOk] at hk
    simp only [elemsDefined] at hd
    have hp' : p ∈ unsetPathsElems es 0 [] := hp
    obtain ⟨n, e, hn, hpe⟩ := unsetPathsElems_mem_extract hp'
    have hmem : e ∈ es := List.getElem?_mem hn
    obtain ⟨hne, hde⟩ := elemsDefinedElems_mem hd hmem
    have h0 : 0 + n = n := Nat.zero_add n
    rw [h0] at hpe
    have hpe1 : p ∈ unsetPathsJ e [natStr n] := hpe
    rw [unsetPathsJ_eq_entry e hne hde] at hpe1
    have hshift : unsetPathsEntry [natStr n] e
        = (unsetPathsEntry [] e).map (fun q => [natStr n] ++ q) :=
      (unsetPaths_shift e).2 [natStr n] []
    rw [hshift] at hpe1
    obtain ⟨suffix, hsuf, hps⟩ := List.mem_map.mp hpe1
    subst hps
    have hclean : cleanOf (Js.arr es) = Js.arr (es.map cleanOf) := by
      show cleanObject (Js.arr es) = Js.arr (es.map cleanOf)
      rw [cleanObject, cleanElems_map hd]
    rw [hclean]
    have hgn : (es.map cleanOf)[n]? = some (cleanOf e) := by
      rw [List.getElem?_map, hn]
      rfl
    simp only [List.singleton_append, pathPresent, canonIndex_natStr, hgn]
    exact ih e hmem hne (keysOkElems_mem hk hmem) hde suffix hsuf
  all_goals
    intro hne _ _ p hp
    first
      | exact absurd rfl hne
      | cases hp

theorem cleanOf_eq_cleanObject (v : Js) : cleanOf v = cleanObject v := by
  cases v <;> rfl

theorem lookupField_removeEmptyFields_none {fs : List (String × Js)} {k : String}
    (h : ∀ kv ∈ fs, kv.1 ≠ k) : lookupField (removeEmptyFields fs) k = none := by
  induction fs with
  | nil => rfl
  | cons kv r ih =>
    obtain ⟨k', v⟩ := kv
    have hk' : k' ≠ k := h (k', v) (List.mem_cons_self _ _)
    have hr := ih fun kv hm => h kv (List.mem_cons_of_mem _ hm)
    simp only [removeEmptyFields]
    split
    · split
      · split
        · exact hr
        · simpa [lookupField, hk'] using hr
      · simpa [lookupField, hk'] using hr
    · simpa [lookupField, hk'] using hr

theorem lookupField_removeEmptyFields {fs : List (String × Js)} {k : String} {v' : Js}
    (hd : distinctKeys fs = true)
    (h : lookupField (removeEmptyFields fs) k = some v') :
    ∃ v, lookupField fs k = some v ∧ (v' = v ∨ v' = removeEmptyObjects v) := by
  induction fs with
  | nil => simp [removeEmptyFields, lookupField] at h
  | cons kv r ih =>
    obtain ⟨k', v⟩ := kv
    simp only [distinctKeys, Bool.and_eq_true, List.all_eq_true] at hd
    by_cases hk : k' = k
    · subst hk
      by_cases hio : isObj v = true
      · have hvg : ∃ gs, v = Js.obj gs := by
          cases v <;> first | exact ⟨_, rfl⟩ | simp [isObj] at hio
        obtain ⟨gs, rfl⟩ := hvg
        simp only [removeEmptyFields, isObj, if_true, removeEmptyObjects] at h
        split at h
        · have hnone : lookupField (removeEmptyFields r) k' = none :=
            lookupField_removeEmptyFields_none fun kv hm => by simpa using hd.1 kv hm
          rw [hnone] at h
          exact Option.noConfusion h
        · have h' : Js.obj (removeEmptyFields gs) = v' := by
            simpa [lookupField] using h
          exact ⟨Js.obj gs, by simp [lookupField], Or.inr (by rw [← h']; rfl)⟩
      · have hio' : isObj v = false := by simpa using hio
        have h' : v = v' := by
          simpa [removeEmptyFields, hio', lookupField] using h
        exact ⟨v, by simp [lookupField], Or.inl h'.symm⟩
    · have hstep : lookupField (removeEmptyFields ((k', v) :: r)) k
          = lookupField (removeEmptyFields r) k := by
        simp only [removeEmptyFields]
        split
        · split
          · split
            · rfl
            · simp [lookupField, hk]
          · simp [lookupField, hk]
        · simp [lookupField, hk]
      rw [hstep] at h
      obtain ⟨v0, hl0, hrel⟩ := ih hd.2 h
      exact ⟨v0, by simp [lookupField, hk, hl0], hrel⟩

theorem pathPresent_removeEmpty_mono : ∀ w : Js, keysOk w = true →
    ∀ p, pathPresent (removeEmptyObjects w) p = true → pathPresent w p = true := by
  intro w
  induction w using Js.indOn
  case hobj fs ih =>
    intro hk p hp
    simp only [keysOk, Bool.and_eq_true] at hk
    cases p with
    | nil => rfl
    | cons k rest =>
      have hp' : pathPresent (Js.obj (removeEmptyFields fs)) (k :: rest) = true := hp
      simp only [pathPresent] at hp'
      cases hl : lookupField (removeEmptyFields fs) k with
      | none => rw [hl] at hp'; cases hp'
      | some v' =>
        rw [hl] at hp'
        obtain ⟨v, hlv, hrel⟩ := lookupField_removeEmptyFields hk.2 hl
        simp only [pathPresent, hlv]
        rcases hrel with hrel | hrel
        · rw [← hrel]; exact hp'
        · subst hrel
          exact ih (k, v) (lookupField_mem hlv)
            (keysOkFields_mem hk.1 (lookupField_mem hlv)).2 rest hp'
  all_goals intro _ p hp; exact hp

theorem distinctKeys_key_sub {fs : List (String × Js)} {k : String}
    (h : (fs.all fun kv => kv.1 != k) = true) :
    ((cleanFields fs).all fun kv => kv.1 != k) = true := by
  induction fs with
  | nil => rfl
  | cons kv r ih =>
    obtain ⟨k', v⟩ := kv
    simp only [List.all_cons, Bool.and_eq_true] at h
    simp only [cleanFields]
    split
    · exact ih h.2
    · split <;> simp only [List.all_cons, Bool.and_eq_true] <;> exact ⟨h.1, ih h.2⟩

theorem distinctKeys_cleanFields {fs : List (String × Js)}
    (h : distinctKeys fs = true) : distinctKeys (cleanFields fs) = true := by
  induction fs with
  | nil => rfl
  | cons kv r ih =>
    obtain ⟨k', v⟩ := kv
    simp only [distinctKeys, Bool.and_eq_true] at h
    simp only [cleanFields]
    split
    · exact ih h.2
    · split <;>
        simp only [distinctKeys, Bool.and_eq_true] <;>
        exact ⟨distinctKeys_key_sub h.1, ih h.2⟩

theorem keysOk_clean : ∀ v : Js, keysOk v = true → keysOk (cleanObject v) = true := by
  intro v
  induction v using Js.indOn
  case hobj fs ih =>
    intro hk
    simp only [keysOk, Bool.and_eq_true] at hk
    have hfields : ∀ (l : List (String × Js)),
        (∀ kv ∈ l, keysOk kv.2 = true → keysOk (cleanObject kv.2) = true) →
        keysOkFields l = true → keysOkFields (cleanFields l) = true := by
      intro l hl
      induction l with
      | nil => intro _; rfl
      | cons kv r ihr =>
        intro hkf
        obtain ⟨k, w⟩ := kv
        simp only [keysOkFields, Bool.and_eq_true] at hkf
        obtain ⟨⟨hsk, hkw⟩, hkr⟩ := hkf
        have hrest := ihr (fun kv hm => hl kv (List.mem_cons_of_mem _ hm)) hkr
        simp only [cleanFields]
        split
        · exact hrest
        · split
          · simp only [keysOkFields, Bool.and_eq_true]
            exact ⟨⟨hsk, hl (k, w) (List.mem_cons_self _ _) hkw⟩, hrest⟩
          · simp only [keysOkFields, Bool.and_eq_true]
            exact ⟨⟨hsk, hkw⟩, hrest⟩
    show keysOk (Js.obj (cleanFields fs)) = true
    simp only [keysOk, Bool.and_eq_true]
    exact ⟨hfields fs (fun kv hm h2 => ih kv hm h2) hk.1, distinctKeys_cleanFields hk.2⟩
  case harr es ih =>
    intro hk
    simp only [keysOk] at hk
    have helems : ∀ (l : List Js),
        (∀ e ∈ l, keysOk e = true → keysOk (cleanObject e) = true) →
        keysOkElems l = true → keysOkElems (cleanElems l) = true := by
      intro l hl
      induction l with
      | nil => intro _; rfl
      | cons e r ihr =>
        intro hke
        simp only [keysOkElems, Bool.and_eq_true] at hke
        have hrest := ihr (fun e hm => hl e (List.mem_cons_of_mem _ hm)) hke.2
        simp only [cleanElems]
        split
        · exact hrest
        · split
          · simp only [keysOkElems, Bool.and_eq_true]
            exact ⟨hl e (List.mem_cons_self _ _) hke.1, hrest⟩
          · simp only [keysOkElems, Bool.and_eq_true]
            exact ⟨hke.1, hrest⟩
    show keysOk (Js.arr (cleanElems es)) = true
    simp only [keysOk]
    exact helems es (fun e hm h2 => ih e hm h2) hk
  all_goals exact fun h => h

theorem unsetPaths_wf : ∀ v : Js, keysOk v = true →
    (∀ pre, pre.all segOk = true → ∀ p ∈ unsetPathsJ v pre,
      p ≠ [] ∧ p.all segOk = true) ∧
    (∀ pre, pre ≠ [] → pre.all segOk = true → ∀ p ∈ unsetPathsEntry pre v,
      p ≠ [] ∧ p.all segOk = true) := by
  intro v
  induction v using Js.indOn
  case hobj fs ih =>
    intro hk
    simp only [keysOk, Bool.and_eq_true] at hk
    have hfb : ∀ (l : List (String × Js)),
        (∀ kv ∈ l, keysOk kv.2 = true → ∀ pre, pre ≠ [] → pre.all segOk = true →
          ∀ p ∈ unsetPathsEntry pre kv.2, p ≠ [] ∧ p.all segOk = true) →
        keysOkFields l = true → ∀ pre, pre.all segOk = true →
        ∀ p ∈ unsetPathsFields l pre, p ≠ [] ∧ p.all segOk = true := by
      intro l hl hkf
      induction l with
      | nil => intro pre _ p hp; cases hp
      | cons kv r ihr =>
        intro pre hpre p hp
        obtain ⟨k, w⟩ := kv
        simp only [keysOkFields, Bool.and_eq_true] at hkf
        obtain ⟨⟨hsk, hkw⟩, hkr⟩ := hkf
        simp only [unsetPathsFields] at hp
        rcases List.mem_append.mp hp with hp | hp
        · exact hl (k, w) (List.mem_cons_self _ _) hkw (pre ++ [k]) (by simp)
            (by simp only [List.all_append, hpre, List.all_cons, List.all_nil, hsk,
                  Bool.and_self]) p hp
        · exact ihr (fun kv hm => hl kv (List.mem_cons_of_mem _ hm)) hkr pre hpre p hp
    exact ⟨fun pre hpre => hfb fs (fun kv hm h2 => (ih kv hm h2).2) hk.1 pre hpre,
           fun pre _ hpre => hfb fs (fun kv hm h2 => (ih kv hm h2).2) hk.1 pre hpre⟩
  case harr es ih =>
    intro hk
    simp only [keysOk] at hk
    have hib : ∀ (l : List Js),
        (∀ e ∈ l, keysOk e = true → ∀ pre, pre ≠ [] → pre.all segOk = true →
          ∀ p ∈ unsetPathsEntry pre e, p ≠ [] ∧ p.all segOk = true) →
        keysOkElems l = true → ∀ i pre, pre.all segOk = true →
        ∀ p ∈ unsetPathsIdx l i pre, p ≠ [] ∧ p.all segOk = true := by
      intro l hl hke
      induction l with
      | nil => intro i pre _ p hp; cases hp
      | cons e r ihr =>
        intro i pre hpre p hp
        simp only [keysOkElems, Bool.and_eq_true] at hke
        simp only [unsetPathsIdx] at hp
        rcases List.mem_append.mp hp with hp | hp
        · exact hl e (List.mem_cons_self _ _) hke.1 (pre ++ [natStr i]) (by simp)
            (by simp only [List.all_append, hpre, List.all_cons, List.all_nil,
                  natStr_segOk, Bool.and_self]) p hp
        · exact ihr (fun e hm => hl e (List.mem_cons_of_mem _ hm)) hke.2 (i + 1)
            pre hpre p hp
    have heb : ∀ (l : List Js),
        (∀ e ∈ l, keysOk e = true → ∀ pre, pre.all segOk = true →
          ∀ p ∈ unsetPathsJ e pre, p ≠ [] ∧ p.all segOk = true) →
        keysOkElems l = true → ∀ i pre, pre.all segOk = true →
        ∀ p ∈ unsetPathsElems l i pre, p ≠ [] ∧ p.all segOk = true := by
      intro l hl hke
      induction l with
      | nil => intro i pre _ p hp; cases hp
      | cons e r ihr =>
        intro i pre hpre p hp
        simp only [keysOkElems, Bool.and_eq_true] at hke
        simp only [unsetPathsElems] at hp
        rcases List.mem_append.mp hp with hp | hp
        · exact hl e (List.mem_cons_self _ _) hke.1 (pre ++ [natStr i])
            (by simp only [List.all_append, hpre, List.all_cons, List.all_nil,
                  natStr_segOk, Bool.and_self]) p hp
        · exact ihr (fun e hm => hl e (List.mem_cons_of_mem _ hm)) hke.2 (i + 1)
            pre hpre p hp
    exact ⟨fun pre hpre => hib es (fun e hm h2 => (ih e hm h2).2) hk 0 pre hpre,
           fun pre hne hpre => heb es (fun e hm h2 => (ih e hm h2).1) hk 0 pre hpre⟩
  case hundef =>
    intro _
    refine ⟨fun pre _ p hp => ?_, fun pre hne hpre p hp => ?_⟩
    · cases hp
    · have hp' : p = pre := by simpa [unsetPathsEntry] using hp
      subst hp'
      exact ⟨hne, hpre⟩
  all_goals
    intro _
    constructor
    · intro pre _ p hp
      cases hp
    · intro pre _ _ p hp
      cases hp

/-- C8, amended: on documents whose object keys are non-empty, dot-free and
distinct and whose *arrays contain no `undefined` elements*, `set` and
`unset` do partition the affected positions: no key of the `unset` map is a
present position of the `set` tree.  (With an `undefined` array element the
partition fails — see the counterexample — because `unset` records indices
of the original array while `set` filters the element out, shifting its
successors down.) -/
theorem c8_partition (data : Js) (hk : keysOk data = true)
    (hd : elemsDefined data = true) :
    ∀ s ∈ (processUndefinedFieldsForUpdate data).2,
      pathPresent (processUndefinedFieldsForUpdate data).1 (dotSplit s) = false := by
  intro s hs
  have hs1 : s ∈ buildUnset data "" := hs
  have hcorr : buildUnset data "" = (unsetPathsJ data []).map dotJoin :=
    (buildUnset_corr data hk).1 [] rfl
  rw [hcorr] at hs1
  obtain ⟨p, hp, hsp⟩ := List.mem_map.mp hs1
  subst hsp
  obtain ⟨hpne, hpok⟩ := (unsetPaths_wf data hk).1 [] rfl p hp
  have hsplit : dotSplit (dotJoin p) = p :=
    dotSplit_dotJoin p hpne fun x hx => List.all_eq_true.mp hpok x hx
  by_cases hdu : data = .undef
  · subst hdu
    cases hp
  have hp' : p ∈ unsetPathsEntry [] data := by
    rw [← unsetPathsJ_eq_entry data hdu hd]
    exact hp
  have hnp : pathPresent (cleanObject data) p = false := by
    rw [← cleanOf_eq_cleanObject]
    exact unsetPaths_not_present data hdu hk hd p hp'
  have hkc : keysOk (cleanObject data) = true := keysOk_clean data hk
  show pathPresent (removeEmptyObjects (cleanObject data)) (dotSplit (dotJoin p)) = false
  rw [hsplit]
  cases hfin : pathPresent (removeEmptyObjects (cleanObject data)) p with
  | false => rfl
  | true =>
    have hmono := pathPresent_removeEmpty_mono (cleanObject data) hkc p hfin
    rw [hmono] at hnp
    exact Bool.noConfusion hnp

/-- Witness for `c8_partition` at `{items:[{v:undefined},{v:1}]}`: the single
unset key `"items.0.v"` is not a present position of the produced `set`. -/
theorem c8_partition_witness :
    pathPresent (processUndefinedFieldsForUpdate docItems).1 (dotSplit "items.0.v")
      = false :=
  c8_partition docItems (by decide) (by decide) "items.0.v" (by decide)

end Mongooat
